import Mathlib

/-!
A verification development of `client.go` of the package `goparse`.

The Go program is embedded shallowly.  A Go `string` is a byte sequence; it is
modelled as a `List Char` in which every character stands for one byte (the
literals used by the program are ASCII).  Go's `(value, error)` results are
modelled with `Except`.  The functions of Go's standard library that
`client.go` calls (`strings`, `net/url`, `net/textproto`, `net/http`) are
embedded from the library's source (go1.22); `json.Marshal` and the transport
behind `http.Client.Do` are parameters of the model.
-/

namespace Goparse

/-- A Go string: a sequence of bytes, one `Char` per byte. -/
abbrev GoString := List Char

/-- Go's `error` values that the modelled code can produce or pass on. -/
inductive GoError where
  /-- `errors.New(text)` / `fmt.Errorf(...)`. -/
  | msg (text : GoString)
  /-- `url.EscapeError(s)`. -/
  | escape (s : GoString)
  /-- `url.InvalidHostError(s)`. -/
  | invalidHost (s : GoString)
  /-- `fmt.Errorf("invalid port %q after host", colonPort)`. -/
  | invalidPort (colonPort : GoString)
  /-- `fmt.Errorf("net/http: invalid method %q", method)`. -/
  | invalidMethod (method : GoString)
  /-- `&url.Error{Op, URL, Err}`. -/
  | urlError (op : GoString) (url : GoString) (err : GoError)
  deriving DecidableEq, Repr

deriving instance DecidableEq for Except

/-! ## Package `strings` -/

namespace strings

/-- `strings.HasPrefix(s, p)`. -/
def HasPrefix (s p : GoString) : Bool := p.isPrefixOf s

/-- `strings.HasSuffix(s, p)`. -/
def HasSuffix (s p : GoString) : Bool := p.isSuffixOf s

/-- `strings.TrimPrefix(s, p)`: `s` without the leading `p`, or `s` itself. -/
def TrimPrefix (s p : GoString) : GoString :=
  if HasPrefix s p then s.drop p.length else s

/-- `strings.TrimSuffix(s, p)`: `s` without the trailing `p`, or `s` itself. -/
def TrimSuffix (s p : GoString) : GoString :=
  if HasSuffix s p then s.take (s.length - p.length) else s

/-- `strings.Index(s, sub)`: the first position of `sub` in `s`;
`none` stands for Go's `-1`. -/
def Index : GoString → GoString → Option Nat
  | [], sub => if sub.isEmpty then some 0 else none
  | c :: t, sub =>
    if sub.isPrefixOf (c :: t) then some 0 else (Index t sub).map (· + 1)

/-- `strings.LastIndex(s, sub)`: the last position of `sub` in `s`;
`none` stands for Go's `-1`. -/
def LastIndex : GoString → GoString → Option Nat
  | [], sub => if sub.isEmpty then some 0 else none
  | c :: t, sub =>
    match LastIndex t sub with
    | some i => some (i + 1)
    | none => if sub.isPrefixOf (c :: t) then some 0 else none

/-- `strings.Contains(s, sub)`. -/
def Contains (s sub : GoString) : Bool := (Index s sub).isSome

/-- `strings.Cut(s, sep)`: the text before and after the first `sep`. -/
def Cut (s sep : GoString) : GoString × GoString × Bool :=
  match Index s sep with
  | some i => (s.take i, s.drop (i + sep.length), true)
  | none => (s, [], false)

/-- The loop of `strings.Count` for a non-empty `sub`, with the number of
iterations bounded by `fuel`. -/
def countLoop : Nat → GoString → GoString → Nat
  | 0, _, _ => 0
  | fuel + 1, s, sub =>
    match Index s sub with
    | none => 0
    | some i => countLoop fuel (s.drop (i + sub.length)) sub + 1

/-- `strings.Count(s, sub)`: the number of non-overlapping instances of `sub`
(for an empty `sub`, one more than the length). -/
def Count (s sub : GoString) : Nat :=
  if sub.isEmpty then s.length + 1 else countLoop (s.length + 1) s sub

/-- `strings.ToLower` on ASCII text (the program applies it to a URL scheme,
which `getScheme` restricts to ASCII letters, digits, `+`, `-` and `.`). -/
def ToLower (s : GoString) : GoString :=
  s.map fun c => if 'A' ≤ c ∧ c ≤ 'Z' then Char.ofNat (c.toNat + 32) else c

end strings

/-- A string literal read as a Go string. -/
instance : Coe String GoString := ⟨String.toList⟩

/-! ## Package `net/url` -/

namespace url

/-- The escaping modes of `net/url` (`type encoding int`). -/
inductive encoding where
  | encodePath
  | encodePathSegment
  | encodeHost
  | encodeZone
  | encodeUserPassword
  | encodeQueryComponent
  | encodeFragment
  deriving DecidableEq, Repr

open encoding

/-- `url.Userinfo`: the user name and the optional password of a URL. -/
structure Userinfo where
  username : GoString := []
  password : GoString := []
  passwordSet : Bool := false
  deriving DecidableEq, Repr

/-- `url.URL`: a parsed URL. `User` is a pointer in Go, here an `Option`. -/
structure URL where
  Scheme : GoString := []
  Opaque : GoString := []
  User : Option Userinfo := none
  Host : GoString := []
  Path : GoString := []
  RawPath : GoString := []
  OmitHost : Bool := false
  ForceQuery : Bool := false
  RawQuery : GoString := []
  Fragment : GoString := []
  RawFragment : GoString := []
  deriving DecidableEq, Repr

/-- `ishex(c)`. -/
def ishex (c : Char) : Bool :=
  ('0' ≤ c ∧ c ≤ '9') ∨ ('a' ≤ c ∧ c ≤ 'f') ∨ ('A' ≤ c ∧ c ≤ 'F')

/-- `unhex(c)`: the value of a hexadecimal digit. -/
def unhex (c : Char) : Nat :=
  if '0' ≤ c ∧ c ≤ '9' then c.toNat - '0'.toNat
  else if 'a' ≤ c ∧ c ≤ 'f' then c.toNat - 'a'.toNat + 10
  else if 'A' ≤ c ∧ c ≤ 'F' then c.toNat - 'A'.toNat + 10
  else 0

/-- The characters `$ & + , / : ; = ? @`, reserved by RFC 3986 §2.2. -/
def isReserved (c : Char) : Bool :=
  c = '$' ∨ c = '&' ∨ c = '+' ∨ c = ',' ∨ c = '/' ∨ c = ':' ∨ c = ';' ∨ c = '='
    ∨ c = '?' ∨ c = '@'

/-- `shouldEscape(c, mode)`: whether the byte must be escaped when it appears
in the part of a URL that `mode` names. -/
def shouldEscape (c : Char) (mode : encoding) : Bool :=
  if ('a' ≤ c ∧ c ≤ 'z') ∨ ('A' ≤ c ∧ c ≤ 'Z') ∨ ('0' ≤ c ∧ c ≤ '9') then false
  else if (mode = encodeHost ∨ mode = encodeZone) ∧
      (c = '!' ∨ c = '$' ∨ c = '&' ∨ c = Char.ofNat 39 ∨ c = '(' ∨ c = ')' ∨ c = '*'
        ∨ c = '+' ∨ c = ',' ∨ c = ';' ∨ c = '=' ∨ c = ':' ∨ c = '[' ∨ c = ']'
        ∨ c = '<' ∨ c = '>' ∨ c = Char.ofNat 34) then false
  else if c = '-' ∨ c = '_' ∨ c = '.' ∨ c = '~' then false
  else if isReserved c ∧ mode = encodePath then c = '?'
  else if isReserved c ∧ mode = encodePathSegment then
    c = '/' ∨ c = ';' ∨ c = ',' ∨ c = '?'
  else if isReserved c ∧ mode = encodeUserPassword then
    c = '@' ∨ c = '/' ∨ c = '?' ∨ c = ':'
  else if isReserved c ∧ mode = encodeQueryComponent then true
  else if isReserved c ∧ mode = encodeFragment then false
  else if mode = encodeFragment ∧ (c = '!' ∨ c = '(' ∨ c = ')' ∨ c = '*') then false
  else true

/-- `unescape(s, mode)`: checks the `%XX` escapes of `s` and decodes them.
Go checks the whole string in a first loop and decodes in a second; both walk
the string left to right, so one pass reports the same first error and
builds the same text. -/
def unescape (mode : encoding) : GoString → Except GoError GoString
  | [] => .ok []
  | c :: cs =>
    if c = '%' then
      match cs with
      | a :: b :: rest =>
        if !(ishex a && ishex b) then .error (.escape ((c :: cs).take 3))
        else if mode = encodeHost ∧ unhex a < 8 ∧ [c, a, b] ≠ ['%', '2', '5'] then
          .error (.escape [c, a, b])
        else if mode = encodeZone ∧ [c, a, b] ≠ ['%', '2', '5']
            ∧ Char.ofNat (unhex a * 16 + unhex b) ≠ ' '
            ∧ shouldEscape (Char.ofNat (unhex a * 16 + unhex b)) encodeHost then
          .error (.escape [c, a, b])
        else (unescape mode rest).map (Char.ofNat (unhex a * 16 + unhex b) :: ·)
      | _ => .error (.escape ((c :: cs).take 3))
    else if c = '+' then
      (unescape mode cs).map ((if mode = encodeQueryComponent then ' ' else '+') :: ·)
    else if (mode = encodeHost ∨ mode = encodeZone) ∧ c.toNat < 0x80
        ∧ shouldEscape c encodeHost then
      .error (.invalidHost [c])
    else (unescape mode cs).map (c :: ·)

/-- The digit `upperhex[n]` of `"0123456789ABCDEF"`. -/
def upperhex (n : Nat) : Char :=
  if n < 10 then Char.ofNat ('0'.toNat + n) else Char.ofNat ('A'.toNat + (n - 10))

/-- `escape(s, mode)`: every byte that `shouldEscape` names becomes `%XX`
(a space becomes `+` in a query component). -/
def escape (s : GoString) (mode : encoding) : GoString :=
  s.flatMap fun c =>
    if c = ' ' ∧ mode = encodeQueryComponent then ['+']
    else if shouldEscape c mode then
      ['%', upperhex (c.toNat / 16 % 16), upperhex (c.toNat % 16)]
    else [c]

/-- `stringContainsCTLByte(s)`: a byte below 0x20, or 0x7f. -/
def stringContainsCTLByte (s : GoString) : Bool :=
  s.any fun b => b.toNat < 0x20 || b.toNat == 0x7f

/-- The loop of `getScheme`: `pre` is `rawURL[:i]` and the third argument
`rawURL[i:]`. -/
def getSchemeLoop (rawURL : GoString) :
    GoString → GoString → Except GoError (GoString × GoString)
  | _, [] => .ok ([], rawURL)
  | pre, c :: rest =>
    if ('a' ≤ c ∧ c ≤ 'z') ∨ ('A' ≤ c ∧ c ≤ 'Z') then
      getSchemeLoop rawURL (pre ++ [c]) rest
    else if ('0' ≤ c ∧ c ≤ '9') ∨ c = '+' ∨ c = '-' ∨ c = '.' then
      if pre.isEmpty then .ok ([], rawURL) else getSchemeLoop rawURL (pre ++ [c]) rest
    else if c = ':' then
      if pre.isEmpty then .error (.msg "missing protocol scheme") else .ok (pre, rest)
    else .ok ([], rawURL)

/-- `getScheme(rawURL)`: splits `scheme:rest`; the scheme is empty when the
text does not start with one. -/
def getScheme (rawURL : GoString) : Except GoError (GoString × GoString) :=
  getSchemeLoop rawURL [] rawURL

/-- `validOptionalPort(port)`: empty, or `:` followed by digits. -/
def validOptionalPort (port : GoString) : Bool :=
  match port with
  | [] => true
  | c :: ds => c = ':' && ds.all fun b => !(b < '0' || b > '9')

/-- `validUserinfo(s)`. -/
def validUserinfo (s : GoString) : Bool :=
  s.all fun r =>
    ('A' ≤ r ∧ r ≤ 'Z') ∨ ('a' ≤ r ∧ r ≤ 'z') ∨ ('0' ≤ r ∧ r ≤ '9')
      ∨ r = '-' ∨ r = '.' ∨ r = '_' ∨ r = ':' ∨ r = '~' ∨ r = '!' ∨ r = '$' ∨ r = '&'
      ∨ r = Char.ofNat 39 ∨ r = '(' ∨ r = ')' ∨ r = '*' ∨ r = '+' ∨ r = ',' ∨ r = ';'
      ∨ r = '=' ∨ r = '%' ∨ r = '@'

/-- `parseHost(host)`: checks the port and unescapes the host. -/
def parseHost (host : GoString) : Except GoError GoString :=
  if strings.HasPrefix host "[" then
    match strings.LastIndex host "]" with
    | none => .error (.msg "missing ']' in host")
    | some i =>
      if !validOptionalPort (host.drop (i + 1)) then
        .error (.invalidPort (host.drop (i + 1)))
      else
        match strings.Index (host.take i) "%25" with
        | some zone => do
          let host1 ← unescape encodeHost (host.take zone)
          let host2 ← unescape encodeZone ((host.take i).drop zone)
          let host3 ← unescape encodeHost (host.drop i)
          pure (host1 ++ host2 ++ host3)
        | none => unescape encodeHost host
  else
    match strings.LastIndex host ":" with
    | some i =>
      if !validOptionalPort (host.drop i) then
        .error (.invalidPort (host.drop i))
      else unescape encodeHost host
    | none => unescape encodeHost host

/-- The user part of `parseAuthority`, for the text before the last `@`. -/
def parseUserinfo (userinfo : GoString) : Except GoError Userinfo :=
  if !validUserinfo userinfo then .error (.msg "net/url: invalid userinfo")
  else if !strings.Contains userinfo ":" then do
    let username ← unescape encodeUserPassword userinfo
    pure { username := username }
  else do
    let username ← unescape encodeUserPassword (strings.Cut userinfo ":").1
    let password ← unescape encodeUserPassword (strings.Cut userinfo ":").2.1
    pure { username := username, password := password, passwordSet := true }

/-- `parseAuthority(authority)`: `[userinfo@]host`. -/
def parseAuthority (authority : GoString) :
    Except GoError (Option Userinfo × GoString) :=
  match strings.LastIndex authority "@" with
  | none => do
    let host ← parseHost authority
    pure (none, host)
  | some i => do
    let host ← parseHost (authority.drop (i + 1))
    let user ← parseUserinfo (authority.take i)
    pure (some user, host)

/-- `(*URL).setPath(p)`: sets `Path` and, when the default encoding of the
path differs from `p`, `RawPath`. -/
def URL.setPath (u : URL) (p : GoString) : Except GoError URL :=
  match unescape encodePath p with
  | .error e => .error e
  | .ok path =>
    .ok { u with Path := path, RawPath := if p = escape path encodePath then [] else p }

/-- `(*URL).setFragment(f)`. -/
def URL.setFragment (u : URL) (f : GoString) : Except GoError URL :=
  match unescape encodeFragment f with
  | .error e => .error e
  | .ok frag =>
    .ok { u with
      Fragment := frag,
      RawFragment := if f = escape frag encodeFragment then [] else f }

/-- The end of `parse`: the authority, when the text has one, and the path. -/
def parseAuthorityAndPath (u : URL) (rest : GoString) (viaRequest : Bool) :
    Except GoError URL :=
  if (u.Scheme ≠ [] ∨ (!viaRequest ∧ !strings.HasPrefix rest "///"))
      ∧ strings.HasPrefix rest "//" then
    let authority := rest.drop 2
    let cut : GoString × GoString :=
      match strings.Index authority "/" with
      | some i => (authority.take i, authority.drop i)
      | none => (authority, [])
    match parseAuthority cut.1 with
    | .error e => .error e
    | .ok (user, host) => URL.setPath { u with User := user, Host := host } cut.2
  else if u.Scheme ≠ [] ∧ strings.HasPrefix rest "/" then
    URL.setPath { u with OmitHost := true } rest
  else URL.setPath u rest

/-- The middle of `parse`: what follows once the scheme and the query are
split off. A text that does not start with `/` is opaque when it has a scheme
and is refused when it comes from a request. -/
def parseRest (u : URL) (rest : GoString) (viaRequest : Bool) : Except GoError URL :=
  if !strings.HasPrefix rest "/" then
    if u.Scheme ≠ [] then .ok { u with Opaque := rest }
    else if viaRequest then .error (.msg "invalid URI for request")
    else if strings.Contains (strings.Cut rest "/").1 ":" then
      .error (.msg "first path segment in URL cannot contain colon")
    else parseAuthorityAndPath u rest viaRequest
  else parseAuthorityAndPath u rest viaRequest

/-- `parse(rawURL, viaRequest)`: parses a URL without a fragment. With
`viaRequest` the text must be an absolute URI or an absolute path. -/
def parse (rawURL : GoString) (viaRequest : Bool) : Except GoError URL :=
  if stringContainsCTLByte rawURL then
    .error (.msg "net/url: invalid control character in URL")
  else if rawURL.isEmpty ∧ viaRequest then .error (.msg "empty url")
  else if rawURL = "*" then .ok { Path := "*" }
  else
    match getScheme rawURL with
    | .error e => .error e
    | .ok (scheme, rest) =>
      if strings.HasSuffix rest "?" ∧ strings.Count rest "?" = 1 then
        parseRest { Scheme := strings.ToLower scheme, ForceQuery := true }
          (rest.take (rest.length - 1)) viaRequest
      else
        parseRest { Scheme := strings.ToLower scheme, RawQuery := (strings.Cut rest "?").2.1 }
          (strings.Cut rest "?").1 viaRequest

/-- `url.Parse(rawURL)`: a URL, absolute or relative, with its fragment. -/
def Parse (rawURL : GoString) : Except GoError URL :=
  match parse (strings.Cut rawURL "#").1 false with
  | .error e => .error (.urlError "parse" (strings.Cut rawURL "#").1 e)
  | .ok u =>
    if (strings.Cut rawURL "#").2.1 = [] then .ok u
    else
      match URL.setFragment u (strings.Cut rawURL "#").2.1 with
      | .error e => .error (.urlError "parse" rawURL e)
      | .ok u => .ok u

/-- `url.ParseRequestURI(rawURL)`: the URL of an HTTP request line, an
absolute URI or an absolute path, without a fragment. -/
def ParseRequestURI (rawURL : GoString) : Except GoError URL :=
  match parse rawURL true with
  | .error e => .error (.urlError "parse" rawURL e)
  | .ok u => .ok u

/-- `validEncoded(s, mode)`: whether `s` is an acceptable escaped form. -/
def validEncoded (s : GoString) (mode : encoding) : Bool :=
  s.all fun c =>
    if c = '!' ∨ c = '$' ∨ c = '&' ∨ c = Char.ofNat 39 ∨ c = '(' ∨ c = ')' ∨ c = '*'
        ∨ c = '+' ∨ c = ',' ∨ c = ';' ∨ c = '=' ∨ c = ':' ∨ c = '@' then true
    else if c = '[' ∨ c = ']' then true
    else if c = '%' then true
    else !shouldEscape c mode

/-- `(*URL).EscapedPath()`: `RawPath` when it is a valid encoding of `Path`,
the default encoding of `Path` otherwise. -/
def URL.EscapedPath (u : URL) : GoString :=
  if u.RawPath ≠ [] ∧ validEncoded u.RawPath encodePath
      ∧ unescape encodePath u.RawPath = .ok u.Path then u.RawPath
  else if u.Path = "*" then "*"
  else escape u.Path encodePath

/-- `(*URL).EscapedFragment()`. -/
def URL.EscapedFragment (u : URL) : GoString :=
  if u.RawFragment ≠ [] ∧ validEncoded u.RawFragment encodeFragment
      ∧ unescape encodeFragment u.RawFragment = .ok u.Fragment then u.RawFragment
  else escape u.Fragment encodeFragment

/-- `(*Userinfo).String()`: `username[:password]`, escaped. -/
def Userinfo.String (u : Userinfo) : GoString :=
  escape u.username encodeUserPassword ++
    (if u.passwordSet then (":" : GoString) ++ escape u.password encodeUserPassword else [])

/-- The part of `(*URL).String()` written before the path when the URL is not
opaque: `//`, the user and the host. -/
def URL.authorityString (u : URL) : GoString :=
  if u.Scheme ≠ [] ∨ u.Host ≠ [] ∨ u.User ≠ none then
    if u.OmitHost ∧ u.Host = [] ∧ u.User = none then []
    else
      (if u.Host ≠ [] ∨ u.Path ≠ [] ∨ u.User ≠ none then ("//" : GoString) else []) ++
      (match u.User with
        | some ui => Userinfo.String ui ++ "@"
        | none => []) ++
      (if u.Host ≠ [] then escape u.Host encodeHost else [])
  else []

/-- The scheme, the authority and the path of `(*URL).String()`. -/
def URL.hierString (u : URL) : GoString :=
  let buf : GoString := (if u.Scheme ≠ [] then u.Scheme ++ ":" else [])
  if u.Opaque ≠ [] then buf ++ u.Opaque
  else
    let buf := buf ++ URL.authorityString u
    let path := URL.EscapedPath u
    let buf := if path ≠ [] ∧ path.head? ≠ some '/' ∧ u.Host ≠ [] then buf ++ "/" else buf
    let buf :=
      if buf = [] ∧ strings.Contains (strings.Cut path "/").1 ":" then buf ++ "./" else buf
    buf ++ path

/-- `(*URL).String()`: the URL reassembled as
`scheme://userinfo@host/path?query#fragment` (or `scheme:opaque?query#fragment`). -/
def URL.String (u : URL) : GoString :=
  URL.hierString u ++
    (if u.ForceQuery ∨ u.RawQuery ≠ [] then ("?" : GoString) ++ u.RawQuery else []) ++
    (if u.Fragment ≠ [] then ("#" : GoString) ++ URL.EscapedFragment u else [])

end url

/-! ## Packages `net/textproto`, `net/http` and `crypto/tls` -/

namespace http

/-- The token bytes of RFC 7230 (`validHeaderFieldByte`, `httpguts.IsTokenRune`):
letters, digits and ``!#$%&'*+-.^_`|~``. -/
def isToken (c : Char) : Bool :=
  ('a' ≤ c ∧ c ≤ 'z') ∨ ('A' ≤ c ∧ c ≤ 'Z') ∨ ('0' ≤ c ∧ c ≤ '9')
    ∨ c = '!' ∨ c = '#' ∨ c = '$' ∨ c = '%' ∨ c = '&' ∨ c = Char.ofNat 39 ∨ c = '*'
    ∨ c = '+' ∨ c = '-' ∨ c = '.' ∨ c = '^' ∨ c = '_' ∨ c = Char.ofNat 96 ∨ c = '|'
    ∨ c = '~'

/-- The second loop of `canonicalMIMEHeaderKey`: the first letter and every
letter after a dash in upper case, the others in lower case. -/
def canonicalizeLoop : Bool → GoString → GoString
  | _, [] => []
  | upper, c :: rest =>
    let c :=
      if upper ∧ 'a' ≤ c ∧ c ≤ 'z' then Char.ofNat (c.toNat - 32)
      else if !upper ∧ 'A' ≤ c ∧ c ≤ 'Z' then Char.ofNat (c.toNat + 32)
      else c
    c :: canonicalizeLoop (c = '-') rest

/-- `canonicalMIMEHeaderKey(a)` of `net/textproto`: a key with a byte that is
neither a token byte nor a space, or with a space, is returned unchanged. (Go
then returns its interned copy of a common header name, the same text.) -/
def canonicalMIMEHeaderKey (a : GoString) : GoString × Bool :=
  if a.any fun c => !isToken c && c != ' ' then (a, false)
  else if a.any fun c => !isToken c then (a, true)
  else (canonicalizeLoop true a, true)

/-- The loop of `textproto.CanonicalMIMEHeaderKey`: returns `s` when it is
canonical already or holds a byte that is not a token byte. -/
def canonicalQuickCheck (s : GoString) : Bool → GoString → GoString
  | _, [] => s
  | upper, c :: rest =>
    if !isToken c then s
    else if upper ∧ 'a' ≤ c ∧ c ≤ 'z' then (canonicalMIMEHeaderKey s).1
    else if !upper ∧ 'A' ≤ c ∧ c ≤ 'Z' then (canonicalMIMEHeaderKey s).1
    else canonicalQuickCheck s (c = '-') rest

/-- `textproto.CanonicalMIMEHeaderKey(s)`. -/
def CanonicalMIMEHeaderKey (s : GoString) : GoString :=
  canonicalQuickCheck s true s

/-- `http.Header`, a `map[string][]string`: an association list with at most
one entry for a key. -/
abbrev Header := List (GoString × List GoString)

/-- The map read `h[key]`; `none` when the key is absent. -/
def Header.lookup (h : Header) (key : GoString) : Option (List GoString) :=
  List.lookup key h

/-- The map write `h[key] = values`. -/
def Header.insert (h : Header) (key : GoString) (values : List GoString) : Header :=
  (key, values) :: h.filter fun e => e.1 != key

/-- `Header.Set(key, value)`: replaces the values of the canonical key by
`value`. -/
def Header.Set (h : Header) (key value : GoString) : Header :=
  Header.insert h (CanonicalMIMEHeaderKey key) [value]

/-- `Header.Values(key)`: the values of the canonical key, none when absent. -/
def Header.Values (h : Header) (key : GoString) : List GoString :=
  (Header.lookup h (CanonicalMIMEHeaderKey key)).getD []

/-- `Header.Get(key)`: the first value of the canonical key, `""` when absent. -/
def Header.Get (h : Header) (key : GoString) : GoString :=
  (Header.Values h key).headD []

/-- Whether the header map has an entry for the canonical key
(`_, ok := h[CanonicalMIMEHeaderKey(key)]`). -/
def Header.Has (h : Header) (key : GoString) : Bool :=
  (Header.lookup h (CanonicalMIMEHeaderKey key)).isSome

/-- `validMethod(method)`: a non-empty token. -/
def validMethod (method : GoString) : Bool :=
  0 < method.length && method.all isToken

/-- `hasPort(s)`: `strings.LastIndex(s, ":") > strings.LastIndex(s, "]")`. -/
def hasPort (s : GoString) : Bool :=
  match strings.LastIndex s ":", strings.LastIndex s "]" with
  | some i, some j => j < i
  | some _, none => true
  | none, _ => false

/-- `removeEmptyPort(host)`: strips the empty port of `host:`. -/
def removeEmptyPort (host : GoString) : GoString :=
  if hasPort host then strings.TrimSuffix host ":" else host

/-- `http.Request`, the fields that `http.NewRequest` fills from its
arguments. `Body` is the content the body reader yields, `none` for a nil
body. -/
structure Request where
  Method : GoString
  URL : url.URL
  Header : Header
  Body : Option GoString
  ContentLength : Nat
  Host : GoString
  deriving DecidableEq, Repr

/-- `http.NewRequest(method, url, body)` for a body that is nil or a
`*bytes.Reader` over `body`: an empty method is `GET`, the method must be a
token and the URL must parse. -/
def NewRequest (method url : GoString) (body : Option GoString) :
    Except GoError Request :=
  let method : GoString := if method = [] then "GET" else method
  if !validMethod method then .error (.invalidMethod method)
  else
    match Goparse.url.Parse url with
    | .error e => .error e
    | .ok u =>
      .ok {
        Method := method
        URL := { u with Host := removeEmptyPort u.Host }
        Header := []
        Body := body
        ContentLength := (body.map List.length).getD 0
        Host := removeEmptyPort u.Host }

end http

namespace tls

/-- `tls.TLS_RSA_WITH_AES_256_CBC_SHA`. -/
def TLS_RSA_WITH_AES_256_CBC_SHA : Nat := 0x0035

/-- `tls.TLS_ECDHE_ECDSA_WITH_AES_256_CBC_SHA`. -/
def TLS_ECDHE_ECDSA_WITH_AES_256_CBC_SHA : Nat := 0xc00a

/-- `tls.TLS_ECDHE_RSA_WITH_AES_256_CBC_SHA`. -/
def TLS_ECDHE_RSA_WITH_AES_256_CBC_SHA : Nat := 0xc014

/-- `tls.Config`, the fields the program sets; the zero value has no cipher
suites listed and verifies certificates. -/
structure Config where
  CipherSuites : List Nat := []
  InsecureSkipVerify : Bool := false
  deriving DecidableEq, Repr

end tls

namespace http

/-- `http.Transport`, the field the program sets. -/
structure Transport where
  TLSClientConfig : Option tls.Config := none
  deriving DecidableEq, Repr

/-- `http.Client`; a nil `Transport` means `http.DefaultTransport`. -/
structure Client where
  Transport : Option Transport := none
  deriving DecidableEq, Repr

end http

/-! ## Package `goparse` (`client.go`) -/

/-- The header name `contentTypeHeader`. -/
def contentTypeHeader : GoString := "Content-Type"

/-- The header name `masterKeyHeader`. -/
def masterKeyHeader : GoString := "X-Parse-Master-Key"

/-- The header name `restAPIKeyHeader`. -/
def restAPIKeyHeader : GoString := "X-Parse-REST-API-Key"

/-- The header name `applicationIDHeader`. -/
def applicationIDHeader : GoString := "X-Parse-Application-ID"

/-- `ParseClient` provides access to the Parse API. `apiBaseURL` is the URL
that the pointer of the Go struct refers to. -/
structure ParseClient where
  apiBaseURL : url.URL
  applicationID : GoString := []
  restAPIKey : GoString := []
  masterKey : GoString := []
  deriving DecidableEq, Repr

/-- `NewParseClient(rawAPIBaseURL, applicationID, apiKey)`. -/
def NewParseClient (rawAPIBaseURL applicationID apiKey : GoString) :
    Except GoError ParseClient :=
  match url.ParseRequestURI (strings.TrimSuffix rawAPIBaseURL "/") with
  | .error err => .error err
  | .ok apiBaseURL =>
    .ok { apiBaseURL := apiBaseURL, applicationID := applicationID, restAPIKey := apiKey }

/-- `(*ParseClient).SetMasterKey(masterKey)`. -/
def ParseClient.SetMasterKey (c : ParseClient) (masterKey : GoString) : ParseClient :=
  { c with masterKey := masterKey }

/-- `(*ParseClient).prepareHTTPClient()`: a client with a TLS configuration
when the scheme of the API base URL is `https`. -/
def ParseClient.prepareHTTPClient (c : ParseClient) : http.Client :=
  if c.apiBaseURL.Scheme = "https" then
    let tlscfg : tls.Config := {
      CipherSuites := [
        tls.TLS_RSA_WITH_AES_256_CBC_SHA,
        tls.TLS_ECDHE_ECDSA_WITH_AES_256_CBC_SHA,
        tls.TLS_ECDHE_RSA_WITH_AES_256_CBC_SHA ] }
    let tlscfg := { tlscfg with InsecureSkipVerify := true }
    let tr : http.Transport := { TLSClientConfig := some tlscfg }
    { Transport := some tr }
  else {}

/-- The text `requestURL` of `prepareHTTPRequest`:
`fmt.Sprintf("%s/%s", c.apiBaseURL, strings.TrimPrefix(resourceURI, "/"))`. -/
def ParseClient.requestURL (c : ParseClient) (resourceURI : GoString) : GoString :=
  url.URL.String c.apiBaseURL ++ "/" ++ strings.TrimPrefix resourceURI "/"

/-- The headers that `prepareHTTPRequest` sets on the new request. -/
def ParseClient.setHeaders (c : ParseClient) (req : http.Request) : http.Request :=
  let header := http.Header.Set req.Header contentTypeHeader "application/json"
  let header := http.Header.Set header applicationIDHeader c.applicationID
  let header := http.Header.Set header restAPIKeyHeader c.restAPIKey
  let header :=
    if c.masterKey ≠ [] then http.Header.Set header masterKeyHeader c.masterKey
    else header
  { req with Header := header }

/-- `(*ParseClient).prepareHTTPRequest(method, resourceURI, body)`. The body
is `none` for Go's `nil`; `marshal` stands for `json.Marshal`. -/
def ParseClient.prepareHTTPRequest {β : Type} (marshal : β → Except GoError GoString)
    (c : ParseClient) (method resourceURI : GoString) (body : Option β) :
    Except GoError http.Request :=
  let requestURL := c.requestURL resourceURI
  match body with
  | none =>
    match http.NewRequest method requestURL none with
    | .error err => .error err
    | .ok req => .ok (c.setHeaders req)
  | some body =>
    match marshal body with
    | .error err => .error err
    | .ok jsonBody =>
      match http.NewRequest method requestURL (some jsonBody) with
      | .error err => .error err
      | .ok req => .ok (c.setHeaders req)

/-- What `http.Client.Do` returns: a response, an error, or both. -/
abbrev DoResult (ρ : Type) := Option ρ × Option GoError

/-- The transport behind `http.Client.Do`: it reads and changes the state `σ`
of the world outside the program. -/
abbrev Executor (σ ρ : Type) := http.Client → http.Request → σ → DoResult ρ × σ

/-- `(*ParseClient).do(method, resourceURI, body)`: builds and executes the
HTTP request. -/
def ParseClient.do_ {β σ ρ : Type} (marshal : β → Except GoError GoString)
    (exec : Executor σ ρ) (c : ParseClient) (method resourceURI : GoString)
    (body : Option β) (w : σ) : DoResult ρ × σ :=
  let client := c.prepareHTTPClient
  match c.prepareHTTPRequest marshal method resourceURI body with
  | .error err => ((none, some err), w)
  | .ok req => exec client req w

/-- `http.MethodGet`. -/
def http.MethodGet : GoString := "GET"

/-- `http.MethodPost`. -/
def http.MethodPost : GoString := "POST"

/-- `http.MethodPut`. -/
def http.MethodPut : GoString := "PUT"

/-- `http.MethodDelete`. -/
def http.MethodDelete : GoString := "DELETE"

/-- `(*ParseClient).Get(resourceURI)`. -/
def ParseClient.Get {β σ ρ : Type} (marshal : β → Except GoError GoString)
    (exec : Executor σ ρ) (c : ParseClient) (resourceURI : GoString) (w : σ) :
    DoResult ρ × σ :=
  c.do_ marshal exec http.MethodGet resourceURI none w

/-- `(*ParseClient).Post(resourceURI, body)`. -/
def ParseClient.Post {β σ ρ : Type} (marshal : β → Except GoError GoString)
    (exec : Executor σ ρ) (c : ParseClient) (resourceURI : GoString) (body : Option β)
    (w : σ) : DoResult ρ × σ :=
  c.do_ marshal exec http.MethodPost resourceURI body w

/-- `(*ParseClient).Put(resourceURI, body)`. -/
def ParseClient.Put {β σ ρ : Type} (marshal : β → Except GoError GoString)
    (exec : Executor σ ρ) (c : ParseClient) (resourceURI : GoString) (body : Option β)
    (w : σ) : DoResult ρ × σ :=
  c.do_ marshal exec http.MethodPut resourceURI body w

/-- `(*ParseClient).Delete(resourceURI)`. -/
def ParseClient.Delete {β σ ρ : Type} (marshal : β → Except GoError GoString)
    (exec : Executor σ ρ) (c : ParseClient) (resourceURI : GoString) (w : σ) :
    DoResult ρ × σ :=
  c.do_ marshal exec http.MethodDelete resourceURI none w


/-- The executor that also counts its invocations. -/
def counting {σ ρ : Type} (exec : Executor σ ρ) : Executor (σ × Nat) ρ :=
  fun client req s => ((exec client req s.1).1, ((exec client req s.1).2, s.2 + 1))

/-! ## Test fixtures (`client_test.go`) -/

/-- The body values used below: `mockStruct`, the test's
`struct{ Name string "json:name" }{"Gianfranco"}`, and a Go channel, which
`json.Marshal` refuses. -/
inductive MockBody where
  | mockStruct
  | channel
  deriving DecidableEq, Repr

/-- `json.Marshal` at the two values of `MockBody`. -/
def mockMarshal : MockBody → Except GoError GoString
  | .mockStruct => .ok "\x7b\"name\":\"Gianfranco\"\x7d"
  | .channel => .error (.msg "json: unsupported type: chan int")

/-- The client of `TestThatNewParseClientReturnsAValidParseClient`, for the
base URL `http://fake.parse.host`. -/
def mockClient : ParseClient :=
  { apiBaseURL := { Scheme := "http", Host := "fake.parse.host" }
    applicationID := "mockApplicationID"
    restAPIKey := "mockApplicationKey" }

/-- The client for the base URL `http://host`. -/
def hostClient : ParseClient :=
  { apiBaseURL := { Scheme := "http", Host := "host" }
    applicationID := "mockApplicationID"
    restAPIKey := "mockApplicationKey" }

/-- The client for the base URL `https://fake.parse.host`. -/
def secureClient : ParseClient :=
  { apiBaseURL := { Scheme := "https", Host := "fake.parse.host" }
    applicationID := "mockApplicationID"
    restAPIKey := "mockApplicationKey" }

/-- The client for the base URL `http://localhost:1337/parse`. -/
def localClient : ParseClient :=
  { apiBaseURL := { Scheme := "http", Host := "localhost:1337", Path := "/parse" }
    applicationID := "mockApplicationID"
    restAPIKey := "mockApplicationKey" }

/-- The client for the base URL `http://127.0.0.1:8080`, the form of the URL
of a test server. -/
def testServerClient : ParseClient :=
  { apiBaseURL := { Scheme := "http", Host := "127.0.0.1:8080" }
    applicationID := "mockApplicationID"
    restAPIKey := "mockApplicationKey" }

/-- An executor that answers every request with status 200 and records the
request it was given. -/
def recordingExecutor : Executor (List http.Request) Nat :=
  fun _ req log => ((some 200, none), log ++ [req])

/-! ## Plain hosts and plain resource paths -/

/-- The bytes of a plain host name: letters, digits, `.` and `-`. -/
def hostAlphabet : GoString :=
  "abcdefghijklmnopqrstuvwxyzABCDEFGHIJKLMNOPQRSTUVWXYZ0123456789.-"

/-- A plain host: not empty, of letters, digits, `.` and `-`. -/
def plainHost (h : GoString) : Bool :=
  !h.isEmpty && h.all fun c => hostAlphabet.contains c

/-- A plain resource path: without a control byte, `%`, `?` or `#`. -/
def plainPath (p : GoString) : Bool :=
  p.all fun c => !(c.toNat < 0x20 || c.toNat == 0x7f) && c != '%' && c != '?' && c != '#'

/-! ## Base URL strings and well-formed resource paths -/

/-- Whether every `%` of the text starts an escape `%XX` with two hexadecimal
digits. -/
def validEscapes : GoString → Bool
  | [] => true
  | c :: cs =>
    if c = '%' then
      match cs with
      | a :: b :: rest => url.ishex a && url.ishex b && validEscapes rest
      | _ => false
    else validEscapes cs

/-- The part of a resource path before its fragment: the text before the
first `#`. -/
def beforeFragment (q : GoString) : GoString := (strings.Cut q "#").1

/-- The fragment of a resource path: the text after the first `#`. -/
def fragmentOf (q : GoString) : GoString := (strings.Cut q "#").2.1

/-- The path of a resource path: the text before the first `?` or `#`. -/
def pathOf (q : GoString) : GoString := (strings.Cut (beforeFragment q) "?").1

/-- A well-formed resource path: no control byte before the fragment, and
every `%` in the path and in the fragment starts an escape `%XX`. (The query,
between the first `?` and the first `#`, is not checked.) -/
def wellFormedResource (q : GoString) : Bool :=
  !url.stringContainsCTLByte (beforeFragment q) && validEscapes (pathOf q)
    && validEscapes (fragmentOf q)

/-- Whether the text starts with `scheme://`, as `getScheme` reads it. -/
def hasSchemeAndAuthority (s : GoString) : Bool :=
  match url.getScheme s with
  | .ok (scheme, rest) => !scheme.isEmpty && strings.HasPrefix rest "//"
  | .error _ => false

/-- The authority and the path that `parse` splits the text after `//` into:
the authority ends before the first `/`. -/
def authorityCut (r : GoString) : GoString × GoString :=
  match strings.Index r "/" with
  | some i => (r.take i, r.drop i)
  | none => (r, [])

/-! ## Lemmas on `strings` -/

namespace strings

theorem TrimPrefix_slash_cons (p : GoString) : TrimPrefix ('/' :: p) "/" = p := by
  simp [TrimPrefix, HasPrefix, List.isPrefixOf]

theorem TrimPrefix_of_not_hasPrefix (s p : GoString) (h : HasPrefix s p = false) :
    TrimPrefix s p = s := by
  simp [TrimPrefix, h]

theorem HasSuffix_iff (s p : GoString) : HasSuffix s p = true ↔ ∃ t, s = t ++ p := by
  unfold HasSuffix
  rw [List.isSuffixOf_iff_suffix]
  constructor
  · rintro ⟨t, ht⟩; exact ⟨t, ht.symm⟩
  · rintro ⟨t, ht⟩; exact ⟨t, ht.symm⟩

theorem TrimSuffix_append (u p : GoString) : TrimSuffix (u ++ p) p = u := by
  have h : HasSuffix (u ++ p) p = true := (HasSuffix_iff _ _).2 ⟨u, rfl⟩
  simp [TrimSuffix, h]

theorem TrimSuffix_of_not_hasSuffix (s p : GoString) (h : HasSuffix s p = false) :
    TrimSuffix s p = s := by
  simp [TrimSuffix, h]

end strings

namespace strings

theorem Index_nil_of_ne_nil (sub : GoString) (hsub : sub ≠ []) : Index [] sub = none := by
  cases sub with
  | nil => exact absurd rfl hsub
  | cons a t => rfl

/-- The fuel that `Count` gives `countLoop` is enough: more fuel counts the
same. -/
theorem countLoop_fuel (sub : GoString) (hsub : sub ≠ []) :
    ∀ (n : Nat) (s : GoString) (m : Nat), s.length < n → s.length < m →
      countLoop n s sub = countLoop m s sub := by
  intro n
  induction n with
  | zero => intro s m h; exact absurd h (Nat.not_lt_zero _)
  | succ n ih =>
    intro s m hn hm
    cases m with
    | zero => exact absurd hm (Nat.not_lt_zero _)
    | succ m =>
      unfold countLoop
      cases hi : Index s sub with
      | none => rfl
      | some i =>
        have hs : s ≠ [] := by
          intro e
          rw [e, Index_nil_of_ne_nil sub hsub] at hi
          cases hi
        have hlen : 0 < s.length := List.length_pos.2 hs
        have hsublen : 0 < sub.length := List.length_pos.2 hsub
        have hdrop : (s.drop (i + sub.length)).length < s.length := by
          rw [List.length_drop]
          omega
        dsimp only
        rw [ih (s.drop (i + sub.length)) m (by omega) (by omega)]

end strings

/-! ## Lemmas on `http.Header` -/

namespace http

theorem Header.lookup_filter_ne (h : Header) (k key : GoString) (hne : key ≠ k) :
    Header.lookup (h.filter fun e => e.1 != k) key = Header.lookup h key := by
  induction h with
  | nil => rfl
  | cons e t ih =>
    obtain ⟨a, v⟩ := e
    unfold Header.lookup at ih ⊢
    by_cases hak : a = k
    · subst hak
      have h1 : (key == a) = false := by simpa using hne
      simp [List.filter, List.lookup, h1, ih]
    · have h2 : (a != k) = true := by simpa using hak
      by_cases hka : key = a
      · subst hka
        simp [List.filter, h2, List.lookup]
      · have h3 : (key == a) = false := by simpa using hka
        simp [List.filter, h2, List.lookup, h3, ih]

theorem Header.lookup_insert_self (h : Header) (k : GoString) (v : List GoString) :
    Header.lookup (Header.insert h k v) k = some v := by
  simp [Header.lookup, Header.insert, List.lookup]

theorem Header.lookup_insert_ne (h : Header) (k key : GoString) (v : List GoString)
    (hne : key ≠ k) :
    Header.lookup (Header.insert h k v) key = Header.lookup h key := by
  have h1 : (key == k) = false := by simpa using hne
  have := Header.lookup_filter_ne h k key hne
  unfold Header.lookup at this ⊢
  simp [Header.insert, List.lookup, h1, this]

theorem Header.Values_Set_self (h : Header) (key value : GoString) :
    Header.Values (Header.Set h key value) key = [value] := by
  simp [Header.Values, Header.Set, Header.lookup_insert_self]

theorem Header.Values_Set_ne (h : Header) (k key value : GoString)
    (hne : CanonicalMIMEHeaderKey key ≠ CanonicalMIMEHeaderKey k) :
    Header.Values (Header.Set h k value) key = Header.Values h key := by
  simp [Header.Values, Header.Set, Header.lookup_insert_ne _ _ _ _ hne]

theorem Header.Has_Set_ne (h : Header) (k key value : GoString)
    (hne : CanonicalMIMEHeaderKey key ≠ CanonicalMIMEHeaderKey k) :
    Header.Has (Header.Set h k value) key = Header.Has h key := by
  simp [Header.Has, Header.Set, Header.lookup_insert_ne _ _ _ _ hne]

theorem Header.Get_of_Values (h : Header) (key value : GoString)
    (hv : Header.Values h key = [value]) : Header.Get h key = value := by
  simp [Header.Get, hv]

/-- A request that `NewRequest` returns has the given method (`GET` for the
empty one), the given body and no header. -/
theorem NewRequest_ok (method u : GoString) (body : Option GoString) (req : Request)
    (h : NewRequest method u body = .ok req) :
    req.Method = (if method = [] then ("GET" : GoString) else method) ∧ req.Body = body
      ∧ req.Header = [] ∧
      ∃ parsed, url.Parse u = .ok parsed
        ∧ req.URL = { parsed with Host := removeEmptyPort parsed.Host }
        ∧ req.Host = removeEmptyPort parsed.Host := by
  unfold NewRequest at h
  dsimp only at h
  generalize (if method = [] then ("GET" : GoString) else method) = m at h ⊢
  cases hv : validMethod m with
  | false => rw [hv] at h; cases h
  | true =>
    rw [hv] at h
    cases hp : url.Parse u with
    | error e => rw [hp] at h; cases h
    | ok parsed =>
      rw [hp] at h
      simp only [Bool.not_true, Bool.false_eq_true, if_false, Except.ok.injEq] at h
      subst h
      exact ⟨rfl, rfl, rfl, parsed, rfl, rfl, rfl⟩

end http

/-! ## Lemmas on `prepareHTTPRequest` -/

theorem canonical_contentType :
    http.CanonicalMIMEHeaderKey contentTypeHeader = ("Content-Type" : GoString) := by decide

theorem canonical_applicationID :
    http.CanonicalMIMEHeaderKey applicationIDHeader = ("X-Parse-Application-Id" : GoString) := by
  decide

theorem canonical_restAPIKey :
    http.CanonicalMIMEHeaderKey restAPIKeyHeader = ("X-Parse-Rest-Api-Key" : GoString) := by
  decide

theorem canonical_masterKey :
    http.CanonicalMIMEHeaderKey masterKeyHeader = ("X-Parse-Master-Key" : GoString) := by
  decide

/-- The three headers that `setHeaders` always sets. -/
theorem setHeaders_fixed (c : ParseClient) (req : http.Request) :
    http.Header.Values (c.setHeaders req).Header contentTypeHeader
        = [("application/json" : GoString)]
      ∧ http.Header.Values (c.setHeaders req).Header applicationIDHeader = [c.applicationID]
      ∧ http.Header.Values (c.setHeaders req).Header restAPIKeyHeader = [c.restAPIKey] := by
  have h12 : http.CanonicalMIMEHeaderKey contentTypeHeader
      ≠ http.CanonicalMIMEHeaderKey applicationIDHeader := by decide
  have h13 : http.CanonicalMIMEHeaderKey contentTypeHeader
      ≠ http.CanonicalMIMEHeaderKey restAPIKeyHeader := by decide
  have h14 : http.CanonicalMIMEHeaderKey contentTypeHeader
      ≠ http.CanonicalMIMEHeaderKey masterKeyHeader := by decide
  have h23 : http.CanonicalMIMEHeaderKey applicationIDHeader
      ≠ http.CanonicalMIMEHeaderKey restAPIKeyHeader := by decide
  have h24 : http.CanonicalMIMEHeaderKey applicationIDHeader
      ≠ http.CanonicalMIMEHeaderKey masterKeyHeader := by decide
  have h34 : http.CanonicalMIMEHeaderKey restAPIKeyHeader
      ≠ http.CanonicalMIMEHeaderKey masterKeyHeader := by decide
  unfold ParseClient.setHeaders
  by_cases hk : c.masterKey = []
  · simp only [hk, ne_eq, not_true_eq_false, if_false]
    refine ⟨?_, ?_, ?_⟩
    · rw [http.Header.Values_Set_ne _ _ _ _ h13, http.Header.Values_Set_ne _ _ _ _ h12,
        http.Header.Values_Set_self]
    · rw [http.Header.Values_Set_ne _ _ _ _ h23, http.Header.Values_Set_self]
    · rw [http.Header.Values_Set_self]
  · simp only [hk, ne_eq, not_false_eq_true, if_true]
    refine ⟨?_, ?_, ?_⟩
    · rw [http.Header.Values_Set_ne _ _ _ _ h14, http.Header.Values_Set_ne _ _ _ _ h13,
        http.Header.Values_Set_ne _ _ _ _ h12, http.Header.Values_Set_self]
    · rw [http.Header.Values_Set_ne _ _ _ _ h24, http.Header.Values_Set_ne _ _ _ _ h23,
        http.Header.Values_Set_self]
    · rw [http.Header.Values_Set_ne _ _ _ _ h34, http.Header.Values_Set_self]

/-- With a master key, `setHeaders` sets the master-key header to it. -/
theorem setHeaders_masterKey (c : ParseClient) (req : http.Request)
    (hk : c.masterKey ≠ []) :
    http.Header.Values (c.setHeaders req).Header masterKeyHeader = [c.masterKey] := by
  unfold ParseClient.setHeaders
  simp only [hk, ne_eq, not_false_eq_true, if_true]
  rw [http.Header.Values_Set_self]

/-- Without a master key, `setHeaders` leaves the master-key header as it is. -/
theorem setHeaders_no_masterKey (c : ParseClient) (req : http.Request)
    (hk : c.masterKey = []) :
    http.Header.Has (c.setHeaders req).Header masterKeyHeader
      = http.Header.Has req.Header masterKeyHeader := by
  have h41 : http.CanonicalMIMEHeaderKey masterKeyHeader
      ≠ http.CanonicalMIMEHeaderKey contentTypeHeader := by decide
  have h42 : http.CanonicalMIMEHeaderKey masterKeyHeader
      ≠ http.CanonicalMIMEHeaderKey applicationIDHeader := by decide
  have h43 : http.CanonicalMIMEHeaderKey masterKeyHeader
      ≠ http.CanonicalMIMEHeaderKey restAPIKeyHeader := by decide
  unfold ParseClient.setHeaders
  simp only [hk, ne_eq, not_true_eq_false, if_false]
  rw [http.Header.Has_Set_ne _ _ _ _ h43, http.Header.Has_Set_ne _ _ _ _ h42,
    http.Header.Has_Set_ne _ _ _ _ h41]

/-- `setHeaders` changes the header of a request only. -/
theorem setHeaders_frame (c : ParseClient) (req : http.Request) :
    (c.setHeaders req).Method = req.Method ∧ (c.setHeaders req).Body = req.Body
      ∧ (c.setHeaders req).URL = req.URL := ⟨rfl, rfl, rfl⟩

/-- A request that `prepareHTTPRequest` returns is the request of `NewRequest`
for the composed URL and the encoded body, with the headers set. -/
theorem prepareHTTPRequest_ok {β : Type} (marshal : β → Except GoError GoString)
    (c : ParseClient) (method p : GoString) (body : Option β) (req : http.Request)
    (h : c.prepareHTTPRequest marshal method p body = .ok req) :
    ∃ (bytes : Option GoString) (req0 : http.Request),
      ((body = none ∧ bytes = none) ∨ ∃ v b, body = some v ∧ marshal v = .ok b ∧ bytes = some b)
      ∧ http.NewRequest method (c.requestURL p) bytes = .ok req0
      ∧ req = c.setHeaders req0 := by
  unfold ParseClient.prepareHTTPRequest at h
  cases body with
  | none =>
    dsimp only at h
    cases hn : http.NewRequest method (c.requestURL p) none with
    | error e => rw [hn] at h; cases h
    | ok req0 =>
      rw [hn] at h
      injection h with h
      exact ⟨none, req0, Or.inl ⟨rfl, rfl⟩, hn, h.symm⟩
  | some v =>
    dsimp only at h
    cases hm : marshal v with
    | error e => rw [hm] at h; cases h
    | ok b =>
      rw [hm] at h
      dsimp only at h
      cases hn : http.NewRequest method (c.requestURL p) (some b) with
      | error e => rw [hn] at h; cases h
      | ok req0 =>
        rw [hn] at h
        injection h with h
        exact ⟨some b, req0, Or.inr ⟨v, b, rfl, hm, rfl⟩, hn, h.symm⟩

/-! ## The claims -/

/-- C1. For every client (so for every successfully constructed one) and
every resource path `p` that does not begin with `/`, `prepareHTTPRequest`
composes the same target URL for `p` and for `"/" + p`: the base URL string,
then `/`, then `p`. It returns the same result for both, and every request it
returns for `p` or for `"/" + p` (any method, any body) targets that string:
the URL of the request is what `url.Parse` reads from it (with an empty port
removed from the host, as `http.NewRequest` does), and so is its host. -/
theorem requestURL_leading_slash (c : ParseClient) (p : GoString)
    (hp : strings.HasPrefix p "/" = false) :
    c.requestURL p = c.requestURL (("/" : GoString) ++ p)
      ∧ c.requestURL p = url.URL.String c.apiBaseURL ++ ("/" : GoString) ++ p
      ∧ (∀ (β : Type) (marshal : β → Except GoError GoString) (method : GoString)
          (body : Option β),
          c.prepareHTTPRequest marshal method p body
            = c.prepareHTTPRequest marshal method (("/" : GoString) ++ p) body)
      ∧ (∀ (β : Type) (marshal : β → Except GoError GoString) (method : GoString)
          (body : Option β) (req : http.Request),
          (c.prepareHTTPRequest marshal method p body = .ok req
            ∨ c.prepareHTTPRequest marshal method (("/" : GoString) ++ p) body = .ok req) →
          ∃ parsed,
            url.Parse (url.URL.String c.apiBaseURL ++ ("/" : GoString) ++ p) = .ok parsed
              ∧ req.URL = { parsed with Host := http.removeEmptyPort parsed.Host }
              ∧ req.Host = http.removeEmptyPort parsed.Host) := by
  have h1 : strings.TrimPrefix p "/" = p := strings.TrimPrefix_of_not_hasPrefix _ _ hp
  have h2 : strings.TrimPrefix (("/" : GoString) ++ p) "/" = p :=
    strings.TrimPrefix_slash_cons p
  have h3 : c.requestURL p = c.requestURL (("/" : GoString) ++ p) := by
    unfold ParseClient.requestURL
    rw [h1, h2]
  have h4 : c.requestURL p = url.URL.String c.apiBaseURL ++ ("/" : GoString) ++ p := by
    unfold ParseClient.requestURL
    rw [h1]
  have h5 : ∀ (β : Type) (marshal : β → Except GoError GoString) (method : GoString)
      (body : Option β),
      c.prepareHTTPRequest marshal method p body
        = c.prepareHTTPRequest marshal method (("/" : GoString) ++ p) body := by
    intro β marshal method body
    unfold ParseClient.prepareHTTPRequest
    rw [h3]
  refine ⟨h3, h4, h5, ?_⟩
  intro β marshal method body req hreq
  have hok : c.prepareHTTPRequest marshal method p body = .ok req := by
    rcases hreq with h | h
    · exact h
    · rw [h5]; exact h
  obtain ⟨bytes, req0, -, hnew, hset⟩ := prepareHTTPRequest_ok marshal c method p body req hok
  obtain ⟨-, -, -, parsed, hparse, hurl, hhost⟩ := http.NewRequest_ok _ _ _ _ hnew
  rw [h4] at hparse
  subst hset
  exact ⟨parsed, hparse, hurl, hhost⟩

/-- C1, at the base URL `http://host`: for the paths `fakeResource` and
`/fakeResource` the composed text is `http://host/fakeResource`, and the
request that `prepareHTTPRequest` returns has the URL `http://host/fakeResource`
and the host `host`. -/
theorem requestURL_leading_slash_witness :
    NewParseClient "http://host" "mockApplicationID" "mockApplicationKey" = .ok hostClient
      ∧ strings.HasPrefix "fakeResource" "/" = false
      ∧ hostClient.requestURL "fakeResource" = ("http://host/fakeResource" : GoString)
      ∧ hostClient.requestURL "/fakeResource" = ("http://host/fakeResource" : GoString)
      ∧ (hostClient.prepareHTTPRequest mockMarshal http.MethodGet "fakeResource" none).map
          (fun req => (url.URL.String req.URL, req.Host))
        = .ok (("http://host/fakeResource" : GoString), ("host" : GoString))
      ∧ (hostClient.prepareHTTPRequest mockMarshal http.MethodGet "/fakeResource" none).map
          (fun req => (url.URL.String req.URL, req.Host))
        = .ok (("http://host/fakeResource" : GoString), ("host" : GoString)) :=
  have h := requestURL_leading_slash hostClient "fakeResource" (by decide)
  ⟨by decide, by decide, h.2.1.trans (by decide), h.1.symm.trans (h.2.1.trans (by decide)),
    by decide, (congrArg (fun r => r.map fun req => (url.URL.String req.URL, req.Host))
      (h.2.2.1 MockBody mockMarshal http.MethodGet none)).symm.trans (by decide)⟩

/-- C2. Whenever `prepareHTTPRequest` succeeds, for any method (so for
GET/POST/PUT/DELETE), any resource path and any body (absent or present), the
request has exactly one value for each of the headers `Content-Type`,
`X-Parse-Application-ID` and `X-Parse-REST-API-Key`: `application/json`, the
client's `applicationID` and the client's `restAPIKey`. -/
theorem prepareHTTPRequest_headers {β : Type} (marshal : β → Except GoError GoString)
    (c : ParseClient) (method : GoString)
    (p : GoString) (body : Option β) (req : http.Request)
    (h : c.prepareHTTPRequest marshal method p body = .ok req) :
    http.Header.Values req.Header contentTypeHeader = [("application/json" : GoString)]
      ∧ http.Header.Values req.Header applicationIDHeader = [c.applicationID]
      ∧ http.Header.Values req.Header restAPIKeyHeader = [c.restAPIKey]
      ∧ http.Header.Get req.Header contentTypeHeader = ("application/json" : GoString)
      ∧ http.Header.Get req.Header applicationIDHeader = c.applicationID
      ∧ http.Header.Get req.Header restAPIKeyHeader = c.restAPIKey := by
  obtain ⟨bytes, req0, -, -, hreq⟩ := prepareHTTPRequest_ok marshal c method p body req h
  subst hreq
  obtain ⟨h1, h2, h3⟩ := setHeaders_fixed c req0
  exact ⟨h1, h2, h3, http.Header.Get_of_Values _ _ _ h1, http.Header.Get_of_Values _ _ _ h2,
    http.Header.Get_of_Values _ _ _ h3⟩

/-- C2, at the request of `TestThatProperHTTPRequestHeadersAreSet`: a `POST`
of `mockStruct` to `/fakeResource` succeeds and carries the three headers. -/
theorem prepareHTTPRequest_headers_witness :
    ∃ req, mockClient.prepareHTTPRequest mockMarshal http.MethodPost "/fakeResource"
        (some MockBody.mockStruct) = .ok req
      ∧ http.Header.Get req.Header contentTypeHeader = ("application/json" : GoString)
      ∧ http.Header.Get req.Header applicationIDHeader = ("mockApplicationID" : GoString)
      ∧ http.Header.Get req.Header restAPIKeyHeader = ("mockApplicationKey" : GoString) :=
  ⟨_, rfl,
    (prepareHTTPRequest_headers mockMarshal mockClient http.MethodPost
      "/fakeResource" (some MockBody.mockStruct) _ rfl).2.2.2⟩

/-- C3, as stated, fails for the empty key: after `SetMasterKey("")` the
request of a `GET` has no `X-Parse-Master-Key` header at all, so it does not
carry that header with the value `""`. -/
theorem setMasterKey_empty_counterexample :
    ((mockClient.SetMasterKey []).prepareHTTPRequest mockMarshal http.MethodGet
        "fakeResource" none).map
      (fun req => (http.Header.Has req.Header masterKeyHeader,
        http.Header.Values req.Header masterKeyHeader,
        decide (http.Header.Values req.Header masterKeyHeader = [[]])))
      = .ok (false, [], false) := by
  decide

/-- C3, amended. After `SetMasterKey(k)` the master key is `k`, the other
fields are unchanged and a later `SetMasterKey` replaces it; for a non-empty
`k`, the request built for any method, resource path and body carries the
header `X-Parse-Master-Key` with the one value `k`, and for the empty `k` it
carries no such header. -/
theorem setMasterKey_header {β : Type} (marshal : β → Except GoError GoString)
    (c : ParseClient) (k : GoString) (method p : GoString) (body : Option β)
    (req : http.Request)
    (h : (c.SetMasterKey k).prepareHTTPRequest marshal method p body = .ok req) :
    (c.SetMasterKey k).masterKey = k
      ∧ (c.SetMasterKey k).apiBaseURL = c.apiBaseURL
      ∧ (c.SetMasterKey k).applicationID = c.applicationID
      ∧ (c.SetMasterKey k).restAPIKey = c.restAPIKey
      ∧ (∀ k0, (c.SetMasterKey k0).SetMasterKey k = c.SetMasterKey k)
      ∧ (k ≠ [] → http.Header.Values req.Header masterKeyHeader = [k]
          ∧ http.Header.Get req.Header masterKeyHeader = k)
      ∧ (k = [] → http.Header.Has req.Header masterKeyHeader = false) := by
  obtain ⟨bytes, req0, -, hnew, hreq⟩ :=
    prepareHTTPRequest_ok marshal (c.SetMasterKey k) method p body req h
  subst hreq
  refine ⟨rfl, rfl, rfl, rfl, fun _ => rfl, ?_, ?_⟩
  · intro hk
    have hv := setHeaders_masterKey (c.SetMasterKey k) req0 hk
    exact ⟨hv, http.Header.Get_of_Values _ _ _ hv⟩
  · intro hk
    rw [setHeaders_no_masterKey (c.SetMasterKey k) req0 hk,
      (http.NewRequest_ok _ _ _ _ hnew).2.2.1]
    rfl

/-- C3, at the key of `TestThatProperHTTPRequestHeadersAreSet`: after
`SetMasterKey("mockMasterKey")` a `GET` of `/fakeResource` succeeds and carries
`X-Parse-Master-Key: mockMasterKey`. -/
theorem setMasterKey_header_witness :
    ∃ req, (mockClient.SetMasterKey "mockMasterKey").prepareHTTPRequest mockMarshal
        http.MethodGet "/fakeResource" none = .ok req
      ∧ (mockClient.SetMasterKey "mockMasterKey").masterKey = ("mockMasterKey" : GoString)
      ∧ http.Header.Values req.Header masterKeyHeader = [("mockMasterKey" : GoString)] :=
  have h := setMasterKey_header mockMarshal mockClient "mockMasterKey" http.MethodGet
    "/fakeResource" none _ rfl
  ⟨_, rfl, h.1, (h.2.2.2.2.2.1 (by decide)).1⟩

/-- C4. A client that `NewParseClient` returns has an empty master key, and
every request that `prepareHTTPRequest` builds for it (any method, resource
path and body) has no `X-Parse-Master-Key` header. -/
theorem newParseClient_no_masterKey (rawAPIBaseURL applicationID apiKey : GoString)
    (c : ParseClient) (hc : NewParseClient rawAPIBaseURL applicationID apiKey = .ok c) :
    c.masterKey = []
      ∧ ∀ (β : Type) (marshal : β → Except GoError GoString) (method p : GoString)
          (body : Option β) (req : http.Request),
          c.prepareHTTPRequest marshal method p body = .ok req →
            http.Header.Has req.Header masterKeyHeader = false
              ∧ http.Header.lookup req.Header masterKeyHeader = none := by
  have hk : c.masterKey = [] := by
    unfold NewParseClient at hc
    cases hp : url.ParseRequestURI (strings.TrimSuffix rawAPIBaseURL "/") with
    | error e => rw [hp] at hc; cases hc
    | ok u =>
      rw [hp] at hc
      injection hc with hc
      subst hc
      rfl
  refine ⟨hk, ?_⟩
  intro β marshal method p body req h
  obtain ⟨bytes, req0, -, hnew, hreq⟩ := prepareHTTPRequest_ok marshal c method p body req h
  subst hreq
  have hhas : http.Header.Has (c.setHeaders req0).Header masterKeyHeader = false := by
    rw [setHeaders_no_masterKey c req0 hk, (http.NewRequest_ok _ _ _ _ hnew).2.2.1]
    rfl
  refine ⟨hhas, ?_⟩
  have hcanon : http.Header.lookup (c.setHeaders req0).Header
      (http.CanonicalMIMEHeaderKey masterKeyHeader) = none := by
    simpa [http.Header.Has] using hhas
  have hsame : http.CanonicalMIMEHeaderKey masterKeyHeader = masterKeyHeader := by decide
  rw [hsame] at hcanon
  exact hcanon

/-- C4, at the client of `TestThatNewParseClientReturnsAValidParseClient`: it
is constructed, and a `POST` of `mockStruct` gives a request without the
`X-Parse-Master-Key` header. -/
theorem newParseClient_no_masterKey_witness :
    NewParseClient "http://fake.parse.host" "mockApplicationID" "mockApplicationKey"
        = .ok mockClient
      ∧ mockClient.masterKey = []
      ∧ ∃ req, mockClient.prepareHTTPRequest mockMarshal http.MethodPost "fakeResource"
          (some MockBody.mockStruct) = .ok req
        ∧ http.Header.Has req.Header masterKeyHeader = false :=
  have h := newParseClient_no_masterKey "http://fake.parse.host" "mockApplicationID"
    "mockApplicationKey" mockClient (by decide)
  ⟨by decide, h.1, _, rfl,
    (h.2 MockBody mockMarshal http.MethodPost "fakeResource" (some MockBody.mockStruct) _
      rfl).1⟩

/-- C6. For a raw base URL `u` that does not end in `/`, `NewParseClient`
returns for `u + "/"` what it returns for `u`: the same error, or the same
client, so with the same base URL. -/
theorem newParseClient_trailing_slash (u applicationID apiKey : GoString)
    (hu : strings.HasSuffix u "/" = false) :
    NewParseClient (u ++ ("/" : GoString)) applicationID apiKey
      = NewParseClient u applicationID apiKey := by
  unfold NewParseClient
  rw [strings.TrimSuffix_append, strings.TrimSuffix_of_not_hasSuffix u _ hu]

/-- C6, at `TestThatNewParseClientStripsLastSlashOfTheAPIBaseURLIfPresent`:
`http://fake.parse.host/` yields the client of `http://fake.parse.host`, whose
base URL string is exactly `http://fake.parse.host`. -/
theorem newParseClient_trailing_slash_witness :
    strings.HasSuffix "http://fake.parse.host" "/" = false
      ∧ NewParseClient "http://fake.parse.host/" "mockApplicationID" "mockApplicationKey"
          = .ok mockClient
      ∧ url.URL.String mockClient.apiBaseURL = ("http://fake.parse.host" : GoString) :=
  ⟨by decide,
    (newParseClient_trailing_slash "http://fake.parse.host" "mockApplicationID"
      "mockApplicationKey" (by decide)).trans (by decide),
    by decide⟩

/-- The method and the body of a request that `prepareHTTPRequest` returns for
a non-empty method. -/
theorem prepareHTTPRequest_method_body {β : Type} (marshal : β → Except GoError GoString)
    (c : ParseClient) (method p : GoString) (hm : method ≠ []) (body : Option β)
    (req : http.Request) (h : c.prepareHTTPRequest marshal method p body = .ok req) :
    req.Method = method
      ∧ ((body = none ∧ req.Body = none)
        ∨ ∃ v b, body = some v ∧ marshal v = .ok b ∧ req.Body = some b) := by
  obtain ⟨bytes, req0, hbody, hnew, hreq⟩ := prepareHTTPRequest_ok marshal c method p body req h
  subst hreq
  obtain ⟨h1, h2, -, -⟩ := http.NewRequest_ok _ _ _ _ hnew
  rw [if_neg hm] at h1
  refine ⟨h1, ?_⟩
  rcases hbody with ⟨hb, hbytes⟩ | ⟨v, b, hb, hv, hbytes⟩
  · exact Or.inl ⟨hb, by rw [← hbytes]; exact h2⟩
  · exact Or.inr ⟨v, b, hb, hv, by rw [← hbytes]; exact h2⟩

/-- What `do` returns once `prepareHTTPRequest` has returned a request. -/
theorem do_of_request {β σ ρ : Type} (marshal : β → Except GoError GoString)
    (exec : Executor σ ρ) (c : ParseClient) (method p : GoString) (body : Option β)
    (w : σ) (req : http.Request)
    (h : c.prepareHTTPRequest marshal method p body = .ok req) :
    c.do_ marshal exec method p body w = exec c.prepareHTTPClient req w := by
  unfold ParseClient.do_
  rw [h]

/-- What `do` returns once `prepareHTTPRequest` has returned an error. -/
theorem do_of_error {β σ ρ : Type} (marshal : β → Except GoError GoString)
    (exec : Executor σ ρ) (c : ParseClient) (method p : GoString) (body : Option β)
    (w : σ) (err : GoError)
    (h : c.prepareHTTPRequest marshal method p body = .error err) :
    c.do_ marshal exec method p body w = ((none, some err), w) := by
  unfold ParseClient.do_
  rw [h]

/-- C7. `Get`, `Post`, `Put` and `Delete` hand the executor the request that
`prepareHTTPRequest` built, with the method `GET`, `POST`, `PUT` and `DELETE`;
the request of `Get` and of `Delete` has no body, and the request of `Post` and
of `Put` with a present body value `v` has as its body exactly the bytes that
`json.Marshal` returned for `v`. -/
theorem verbs_method_and_body {β σ ρ : Type} (marshal : β → Except GoError GoString)
    (exec : Executor σ ρ) (c : ParseClient) (p : GoString) (w : σ) :
    (∀ req, c.prepareHTTPRequest marshal http.MethodGet p none = .ok req →
        req.Method = ("GET" : GoString) ∧ req.Body = none
          ∧ c.Get marshal exec p w = exec c.prepareHTTPClient req w)
      ∧ (∀ req, c.prepareHTTPRequest marshal http.MethodDelete p none = .ok req →
        req.Method = ("DELETE" : GoString) ∧ req.Body = none
          ∧ c.Delete marshal exec p w = exec c.prepareHTTPClient req w)
      ∧ (∀ v req, c.prepareHTTPRequest marshal http.MethodPost p (some v) = .ok req →
        req.Method = ("POST" : GoString)
          ∧ (∃ b, marshal v = .ok b ∧ req.Body = some b)
          ∧ c.Post marshal exec p (some v) w = exec c.prepareHTTPClient req w)
      ∧ (∀ v req, c.prepareHTTPRequest marshal http.MethodPut p (some v) = .ok req →
        req.Method = ("PUT" : GoString)
          ∧ (∃ b, marshal v = .ok b ∧ req.Body = some b)
          ∧ c.Put marshal exec p (some v) w = exec c.prepareHTTPClient req w) := by
  refine ⟨?_, ?_, ?_, ?_⟩
  · intro req h
    obtain ⟨hm, hb⟩ := prepareHTTPRequest_method_body marshal c _ p (by decide) none req h
    refine ⟨hm, ?_, do_of_request marshal exec c _ p none w req h⟩
    rcases hb with ⟨-, hb⟩ | ⟨v, b, hv, -, -⟩
    · exact hb
    · cases hv
  · intro req h
    obtain ⟨hm, hb⟩ := prepareHTTPRequest_method_body marshal c _ p (by decide) none req h
    refine ⟨hm, ?_, do_of_request marshal exec c _ p none w req h⟩
    rcases hb with ⟨-, hb⟩ | ⟨v, b, hv, -, -⟩
    · exact hb
    · cases hv
  · intro v req h
    obtain ⟨hm, hb⟩ :=
      prepareHTTPRequest_method_body marshal c _ p (by decide) (some v) req h
    refine ⟨hm, ?_, do_of_request marshal exec c _ p (some v) w req h⟩
    rcases hb with ⟨hv, -⟩ | ⟨v0, b, hv, hmv, hb⟩
    · cases hv
    · cases hv
      exact ⟨b, hmv, hb⟩
  · intro v req h
    obtain ⟨hm, hb⟩ :=
      prepareHTTPRequest_method_body marshal c _ p (by decide) (some v) req h
    refine ⟨hm, ?_, do_of_request marshal exec c _ p (some v) w req h⟩
    rcases hb with ⟨hv, -⟩ | ⟨v0, b, hv, hmv, hb⟩
    · cases hv
    · cases hv
      exact ⟨b, hmv, hb⟩

/-- C7, at `TestThatPostExecutesAnHTTPPostRequest`: `Post("fakeResource",
mockStruct)` hands the executor one request, with the method `POST` and the
body `{"name":"Gianfranco"}`. -/
theorem verbs_method_and_body_witness :
    ∃ req, mockClient.prepareHTTPRequest mockMarshal http.MethodPost "fakeResource"
        (some MockBody.mockStruct) = .ok req
      ∧ req.Method = ("POST" : GoString)
      ∧ req.Body = some ("\x7b\"name\":\"Gianfranco\"\x7d" : GoString)
      ∧ mockClient.Post mockMarshal recordingExecutor "fakeResource"
          (some MockBody.mockStruct) [] = ((some 200, none), [req]) :=
  have h := (verbs_method_and_body mockMarshal recordingExecutor mockClient "fakeResource"
    []).2.2.1 MockBody.mockStruct _ rfl
  ⟨_, rfl, h.1, by decide, h.2.2.trans rfl⟩

/-- C8. `prepareHTTPClient` returns, when the scheme of the base URL is
`https`, a client whose transport has a TLS configuration with
`InsecureSkipVerify = true` and exactly the three cipher suites
`TLS_RSA_WITH_AES_256_CBC_SHA`, `TLS_ECDHE_ECDSA_WITH_AES_256_CBC_SHA` and
`TLS_ECDHE_RSA_WITH_AES_256_CBC_SHA`; for every other scheme it returns
the default client, without a transport of its own. -/
theorem prepareHTTPClient_tls (c : ParseClient) :
    (c.apiBaseURL.Scheme = ("https" : GoString) →
        c.prepareHTTPClient = { Transport := some { TLSClientConfig := some {
          CipherSuites := [tls.TLS_RSA_WITH_AES_256_CBC_SHA,
            tls.TLS_ECDHE_ECDSA_WITH_AES_256_CBC_SHA,
            tls.TLS_ECDHE_RSA_WITH_AES_256_CBC_SHA],
          InsecureSkipVerify := true } } })
      ∧ (c.apiBaseURL.Scheme ≠ ("https" : GoString) →
        c.prepareHTTPClient = {} ∧ c.prepareHTTPClient.Transport = none) := by
  constructor
  · intro h
    unfold ParseClient.prepareHTTPClient
    rw [if_pos h]
  · intro h
    unfold ParseClient.prepareHTTPClient
    rw [if_neg h]
    exact ⟨rfl, rfl⟩

/-- C8, at the clients of `https://fake.parse.host` (also written
`HTTPS://fake.parse.host/`) and of `http://fake.parse.host`. -/
theorem prepareHTTPClient_tls_witness :
    NewParseClient "https://fake.parse.host" "mockApplicationID" "mockApplicationKey"
        = .ok secureClient
      ∧ NewParseClient "HTTPS://fake.parse.host/" "mockApplicationID" "mockApplicationKey"
        = .ok secureClient
      ∧ (secureClient.prepareHTTPClient.Transport.bind fun tr => tr.TLSClientConfig)
        = some { CipherSuites := [0x0035, 0xc00a, 0xc014], InsecureSkipVerify := true }
      ∧ mockClient.prepareHTTPClient.Transport = none :=
  ⟨by decide, by decide,
    by rw [(prepareHTTPClient_tls secureClient).1 (by decide)]; rfl,
    ((prepareHTTPClient_tls mockClient).2 (by decide)).2⟩

/-- C9. When the JSON encoding of a present body value fails, `do` (and so
`Post` and `Put`) returns that error with no response and the executor is not
invoked: the world and the count of invocations are unchanged. The same holds
for every error of `prepareHTTPRequest`. When `prepareHTTPRequest` returns a
request, the executor is invoked once, on that request and the client of
`prepareHTTPClient`, and its response and error are returned unchanged. -/
theorem do_error_and_passthrough {β σ ρ : Type} (marshal : β → Except GoError GoString)
    (exec : Executor σ ρ) (c : ParseClient) (method p : GoString) (w : σ) (n : Nat) :
    (∀ v err, marshal v = .error err →
        c.do_ marshal (counting exec) method p (some v) (w, n) = ((none, some err), (w, n))
          ∧ c.Post marshal (counting exec) p (some v) (w, n) = ((none, some err), (w, n))
          ∧ c.Put marshal (counting exec) p (some v) (w, n) = ((none, some err), (w, n)))
      ∧ (∀ body err, c.prepareHTTPRequest marshal method p body = .error err →
        c.do_ marshal (counting exec) method p body (w, n) = ((none, some err), (w, n)))
      ∧ (∀ body req, c.prepareHTTPRequest marshal method p body = .ok req →
        c.do_ marshal (counting exec) method p body (w, n)
          = ((exec c.prepareHTTPClient req w).1, ((exec c.prepareHTTPClient req w).2, n + 1))) := by
  have hfail : ∀ (m : GoString) (v : β) (err : GoError), marshal v = .error err →
      c.prepareHTTPRequest marshal m p (some v) = .error err := by
    intro m v err hv
    unfold ParseClient.prepareHTTPRequest
    simp only [hv]
  refine ⟨?_, ?_, ?_⟩
  · intro v err hv
    exact ⟨do_of_error marshal _ c method p (some v) (w, n) err (hfail method v err hv),
      do_of_error marshal _ c _ p (some v) (w, n) err (hfail _ v err hv),
      do_of_error marshal _ c _ p (some v) (w, n) err (hfail _ v err hv)⟩
  · intro body err h
    exact do_of_error marshal _ c method p body (w, n) err h
  · intro body req h
    rw [do_of_request marshal _ c method p body (w, n) req h]
    rfl

/-- C9, at a Go channel as the body, which `json.Marshal` refuses: `Post`
returns the error and the executor records no request; and at `mockStruct`,
where the executor is invoked once. -/
theorem do_error_and_passthrough_witness :
    mockClient.Post mockMarshal (counting recordingExecutor) "fakeResource"
        (some MockBody.channel) ([], 0)
      = ((none, some (.msg "json: unsupported type: chan int")), ([], 0))
      ∧ (mockClient.Post mockMarshal (counting recordingExecutor) "fakeResource"
        (some MockBody.mockStruct) ([], 0)).2.2 = 1 :=
  have h := do_error_and_passthrough mockMarshal recordingExecutor mockClient
    http.MethodPost "fakeResource" [] 0
  ⟨(h.1 MockBody.channel _ rfl).2.1, by
    have h3 := h.2.2 (some MockBody.mockStruct) _ rfl
    exact congrArg (fun r => r.2.2) h3⟩

/-! ### Base URLs without a scheme -/

namespace url

/-- When `getSchemeLoop` finds no scheme it returns the whole text. -/
theorem getSchemeLoop_no_scheme (raw : GoString) :
    ∀ (s pre r : GoString), getSchemeLoop raw pre s = .ok ([], r) → r = raw := by
  intro s
  induction s with
  | nil =>
    intro pre r h
    simp only [getSchemeLoop, Except.ok.injEq, Prod.mk.injEq, true_and] at h
    exact h.symm
  | cons c t ih =>
    intro pre r h
    unfold getSchemeLoop at h
    by_cases h1 : ('a' ≤ c ∧ c ≤ 'z') ∨ ('A' ≤ c ∧ c ≤ 'Z')
    · rw [if_pos h1] at h
      exact ih _ _ h
    · rw [if_neg h1] at h
      by_cases h2 : ('0' ≤ c ∧ c ≤ '9') ∨ c = '+' ∨ c = '-' ∨ c = '.'
      · rw [if_pos h2] at h
        cases hpre : pre.isEmpty with
        | true =>
          simp only [hpre, if_true, Except.ok.injEq, Prod.mk.injEq, true_and] at h
          exact h.symm
        | false =>
          simp only [hpre, Bool.false_eq_true, if_false] at h
          exact ih _ _ h
      · rw [if_neg h2] at h
        by_cases h3 : c = ':'
        · rw [if_pos h3] at h
          cases hpre : pre.isEmpty with
          | true => simp [hpre] at h
          | false =>
            simp only [hpre, Bool.false_eq_true, if_false, Except.ok.injEq,
              Prod.mk.injEq] at h
            rw [h.1] at hpre
            simp at hpre
        · rw [if_neg h3] at h
          simp only [Except.ok.injEq, Prod.mk.injEq, true_and] at h
          exact h.symm

/-- A text in which `getSchemeLoop` finds no scheme has none either once its
last byte, a `/`, is removed. -/
theorem getSchemeLoop_drop_slash (R R' : GoString) :
    ∀ (t pre : GoString),
      (∀ sch r, getSchemeLoop R pre (t ++ ['/']) = .ok (sch, r) → sch = []) →
      ∀ sch r, getSchemeLoop R' pre t = .ok (sch, r) → sch = [] := by
  intro t
  induction t with
  | nil =>
    intro pre _ sch r h
    simp only [getSchemeLoop, Except.ok.injEq, Prod.mk.injEq] at h
    exact h.1.symm
  | cons c t ih =>
    intro pre H sch r h
    rw [List.cons_append] at H
    unfold getSchemeLoop at h H
    by_cases h1 : ('a' ≤ c ∧ c ≤ 'z') ∨ ('A' ≤ c ∧ c ≤ 'Z')
    · rw [if_pos h1] at h
      simp only [if_pos h1] at H
      exact ih _ H _ _ h
    · rw [if_neg h1] at h
      simp only [if_neg h1] at H
      by_cases h2 : ('0' ≤ c ∧ c ≤ '9') ∨ c = '+' ∨ c = '-' ∨ c = '.'
      · rw [if_pos h2] at h
        simp only [if_pos h2] at H
        cases hpre : pre.isEmpty with
        | true =>
          simp only [hpre, if_true, Except.ok.injEq, Prod.mk.injEq] at h
          exact h.1.symm
        | false =>
          simp only [hpre, Bool.false_eq_true, if_false] at h H
          exact ih _ H _ _ h
      · rw [if_neg h2] at h
        simp only [if_neg h2] at H
        by_cases h3 : c = ':'
        · rw [if_pos h3] at h
          simp only [if_pos h3] at H
          cases hpre : pre.isEmpty with
          | true => simp [hpre] at h
          | false =>
            simp only [hpre, Bool.false_eq_true, if_false, Except.ok.injEq,
              Prod.mk.injEq] at h H
            exact (H pre (t ++ ['/']) ⟨rfl, rfl⟩) ▸ h.1.symm
        · rw [if_neg h3] at h
          simp only [Except.ok.injEq, Prod.mk.injEq] at h
          exact h.1.symm

/-- Without a scheme, a text from a request that does not start with `/` is
refused. -/
theorem parseRest_no_scheme (u : URL) (rest : GoString) (hu : u.Scheme = [])
    (hrest : strings.HasPrefix rest "/" = false) :
    parseRest u rest true = .error (.msg "invalid URI for request") := by
  unfold parseRest
  rw [hrest, hu]
  rfl

end url

theorem strings.HasPrefix_take (s p : GoString) (n : Nat)
    (h : strings.HasPrefix s p = false) :
    strings.HasPrefix (s.take n) p = false := by
  unfold strings.HasPrefix at h ⊢
  cases hh : p.isPrefixOf (s.take n) with
  | false => rfl
  | true =>
    rw [List.isPrefixOf_iff_prefix] at hh
    have h2 : p <+: s := hh.trans (List.take_prefix n s)
    rw [← List.isPrefixOf_iff_prefix] at h2
    rw [h2] at h
    cases h

theorem strings.Cut_fst_take (s sep : GoString) : ∃ n, (strings.Cut s sep).1 = s.take n := by
  unfold strings.Cut
  cases strings.Index s sep with
  | none => exact ⟨s.length, by simp⟩
  | some i => exact ⟨i, rfl⟩

/-- `parse` refuses a text from a request that has no scheme, does not start
with `/` and is not `*`. -/
theorem url.parse_no_scheme_error (s : GoString)
    (hs : ∀ scheme rest, url.getScheme s = .ok (scheme, rest) → scheme = [])
    (hslash : strings.HasPrefix s "/" = false) (hstar : s ≠ ("*" : GoString)) :
    ∃ err, url.parse s true = .error err := by
  unfold url.parse
  by_cases h1 : url.stringContainsCTLByte s = true
  · rw [if_pos h1]; exact ⟨_, rfl⟩
  · rw [if_neg h1]
    by_cases h2 : s.isEmpty = true ∧ true = true
    · rw [if_pos h2]; exact ⟨_, rfl⟩
    · rw [if_neg h2, if_neg hstar]
      cases hg : url.getScheme s with
      | error e => exact ⟨e, rfl⟩
      | ok sr =>
        obtain ⟨scheme, rest⟩ := sr
        have hsch : scheme = [] := hs scheme rest hg
        subst hsch
        have hr : rest = s := url.getSchemeLoop_no_scheme s s [] rest hg
        subst hr
        dsimp only
        obtain ⟨n, hn⟩ := strings.Cut_fst_take rest "?"
        split
        · exact ⟨_, url.parseRest_no_scheme _ _ rfl (strings.HasPrefix_take _ _ _ hslash)⟩
        · refine ⟨_, url.parseRest_no_scheme _ _ rfl ?_⟩
          rw [hn]
          exact strings.HasPrefix_take _ _ _ hslash

/-- C5. The code at the failing input: `/invalid/url` is not an absolute URL
(it has no scheme, and no `:` at all), and `NewParseClient` returns for it no
error but a client, whose base URL has no scheme and no host; the request that
this client builds for `fakeResource` has the URL `/invalid/url/fakeResource`
and an empty host. `NewParseClient` returns a client for `*` as well. -/
theorem newParseClient_absolute_path_accepted :
    url.getScheme "/invalid/url" = .ok ([], ("/invalid/url" : GoString))
      ∧ strings.Contains "/invalid/url" ":" = false
      ∧ NewParseClient "/invalid/url" "mockApplicationID" "mockApplicationKey"
        = .ok { apiBaseURL := { Path := "/invalid/url" },
                applicationID := "mockApplicationID", restAPIKey := "mockApplicationKey" }
      ∧ ((NewParseClient "/invalid/url" "mockApplicationID" "mockApplicationKey").bind
          fun c => (c.prepareHTTPRequest mockMarshal http.MethodGet "fakeResource" none).map
            fun req => (url.URL.String req.URL, req.Host))
        = .ok (("/invalid/url/fakeResource" : GoString), [])
      ∧ NewParseClient "*" "mockApplicationID" "mockApplicationKey"
        = .ok { apiBaseURL := { Path := "*" },
                applicationID := "mockApplicationID", restAPIKey := "mockApplicationKey" } := by
  decide

/-- The base URLs without a scheme that `NewParseClient` does refuse: those
that do not begin with `/` and are neither `*` nor `*/`. -/
theorem newParseClient_no_scheme_error (rawAPIBaseURL applicationID apiKey : GoString)
    (hs : ∀ scheme rest, url.getScheme rawAPIBaseURL = .ok (scheme, rest) → scheme = [])
    (hslash : strings.HasPrefix rawAPIBaseURL "/" = false)
    (hstar : rawAPIBaseURL ≠ ("*" : GoString) ∧ rawAPIBaseURL ≠ ("*/" : GoString)) :
    ∃ err, NewParseClient rawAPIBaseURL applicationID apiKey = .error err := by
  have key : ∃ err, url.parse (strings.TrimSuffix rawAPIBaseURL "/") true = .error err := by
    cases hsuf : strings.HasSuffix rawAPIBaseURL "/" with
    | false =>
      rw [strings.TrimSuffix_of_not_hasSuffix _ _ hsuf]
      exact url.parse_no_scheme_error _ hs hslash hstar.1
    | true =>
      obtain ⟨t, ht⟩ := (strings.HasSuffix_iff _ _).1 hsuf
      subst ht
      rw [strings.TrimSuffix_append]
      refine url.parse_no_scheme_error t ?_ ?_ ?_
      · exact url.getSchemeLoop_drop_slash _ _ t [] hs
      · have := strings.HasPrefix_take (t ++ ("/" : GoString)) "/" t.length hslash
        simpa using this
      · intro h
        exact hstar.2 (by rw [h]; rfl)
  obtain ⟨err, herr⟩ := key
  refine ⟨.urlError "parse" (strings.TrimSuffix rawAPIBaseURL "/") err, ?_⟩
  unfold NewParseClient url.ParseRequestURI
  rw [herr]

/-- The raw base URL of
`TestThatNewParseClientErrorsWhenAWrongAPIBaseURLIsPassed`, `invalid/url`, is
one that `NewParseClient` refuses, with the error `invalid URI for request`. -/
theorem newParseClient_refuses_test_input :
    url.getScheme "invalid/url" = .ok ([], ("invalid/url" : GoString))
      ∧ (∃ err, NewParseClient "invalid/url" "mockApplicationID" "mockApplicationKey"
        = .error err)
      ∧ NewParseClient "invalid/url" "mockApplicationID" "mockApplicationKey"
        = .error (.urlError "parse" "invalid/url" (.msg "invalid URI for request")) :=
  ⟨by decide,
    newParseClient_no_scheme_error "invalid/url" "mockApplicationID" "mockApplicationKey"
      (by
        intro scheme rest h
        have h2 : url.getScheme "invalid/url" = .ok ([], ("invalid/url" : GoString)) := by
          decide
        rw [h2] at h
        injection h with h
        injection h with h1 h2
        exact h1.symm)
      (by decide) (by decide),
    by decide⟩

/-! ### Plain base URLs and plain resource paths -/

namespace strings

theorem Index_single_of_not_mem (a : Char) :
    ∀ s : GoString, a ∉ s → Index s [a] = none := by
  intro s
  induction s with
  | nil => intro _; rfl
  | cons c t ih =>
    intro h
    have hc : a ≠ c := fun e => h (e ▸ List.mem_cons_self _ _)
    have ht : a ∉ t := fun e => h (List.mem_cons_of_mem _ e)
    simp [Index, List.isPrefixOf, hc, ih ht]

theorem Index_single_append (a : Char) (t : GoString) :
    ∀ s : GoString, a ∉ s → Index (s ++ a :: t) [a] = some s.length := by
  intro s
  induction s with
  | nil => intro _; simp [Index, List.isPrefixOf]
  | cons c u ih =>
    intro h
    have hc : a ≠ c := fun e => h (e ▸ List.mem_cons_self _ _)
    have hu : a ∉ u := fun e => h (List.mem_cons_of_mem _ e)
    simp [Index, List.isPrefixOf, hc, ih hu]

theorem LastIndex_single_of_not_mem (a : Char) :
    ∀ s : GoString, a ∉ s → LastIndex s [a] = none := by
  intro s
  induction s with
  | nil => intro _; rfl
  | cons c t ih =>
    intro h
    have hc : a ≠ c := fun e => h (e ▸ List.mem_cons_self _ _)
    have ht : a ∉ t := fun e => h (List.mem_cons_of_mem _ e)
    simp [LastIndex, List.isPrefixOf, hc, ih ht]

theorem Cut_single_of_not_mem (a : Char) (s : GoString) (h : a ∉ s) :
    Cut s [a] = (s, [], false) := by
  unfold Cut
  rw [Index_single_of_not_mem a s h]

theorem HasSuffix_single_of_not_mem (a : Char) (s : GoString) (h : a ∉ s) :
    HasSuffix s [a] = false := by
  cases hs : HasSuffix s [a] with
  | false => rfl
  | true =>
    obtain ⟨t, ht⟩ := (HasSuffix_iff _ _).1 hs
    exact absurd (ht ▸ by simp) h

end strings

namespace url

open encoding

theorem unescape_of_plain (mode : encoding) (hmode : mode ≠ encodeQueryComponent) :
    ∀ s : GoString,
      (∀ c ∈ s, c ≠ '%' ∧ ¬((mode = encodeHost ∨ mode = encodeZone) ∧ c.toNat < 0x80
        ∧ shouldEscape c encodeHost = true)) →
      unescape mode s = .ok s := by
  intro s
  induction s with
  | nil => intro _; rfl
  | cons c t ih =>
    intro h
    obtain ⟨h1, h2⟩ := h c (List.mem_cons_self _ _)
    have ht := ih fun d hd => h d (List.mem_cons_of_mem _ hd)
    unfold unescape
    rw [if_neg h1, ht]
    by_cases hplus : c = '+'
    · rw [if_pos hplus, if_neg hmode, hplus]
      rfl
    · rw [if_neg hplus, if_neg h2]
      rfl

theorem escape_of_plain (mode : encoding) (hmode : mode ≠ encodeQueryComponent) :
    ∀ s : GoString, (∀ c ∈ s, shouldEscape c mode = false) → escape s mode = s := by
  intro s
  induction s with
  | nil => intro _; rfl
  | cons c t ih =>
    intro h
    have h1 := h c (List.mem_cons_self _ _)
    have ht := ih fun d hd => h d (List.mem_cons_of_mem _ hd)
    unfold escape at ht ⊢
    rw [List.flatMap_cons, ht]
    have h2 : ¬(c = ' ' ∧ mode = encodeQueryComponent) := fun e => hmode e.2
    rw [if_neg h2, h1]
    rfl

theorem stringContainsCTLByte_append (a b : GoString) :
    stringContainsCTLByte (a ++ b) = (stringContainsCTLByte a || stringContainsCTLByte b) := by
  unfold stringContainsCTLByte
  rw [List.any_append]

end url

set_option maxRecDepth 100000 in
/-- What the bytes of a plain host are not. -/
theorem hostAlphabet_facts :
    ∀ c ∈ hostAlphabet, url.shouldEscape c url.encoding.encodeHost = false ∧ c ≠ '/'
      ∧ c ≠ '?' ∧ c ≠ '#' ∧ c ≠ '@' ∧ c ≠ ':' ∧ c ≠ '[' ∧ c ≠ '%'
      ∧ (c.toNat < 0x20 || c.toNat == 0x7f) = false := by
  decide

theorem plainHost_iff (h : GoString) :
    plainHost h = true ↔ h ≠ [] ∧ ∀ c ∈ h, c ∈ hostAlphabet := by
  unfold plainHost
  cases h with
  | nil => simp
  | cons a t => simp

theorem plainPath_iff (p : GoString) :
    plainPath p = true ↔
      ∀ c ∈ p, (c.toNat < 0x20 || c.toNat == 0x7f) = false ∧ c ≠ '%' ∧ c ≠ '?' ∧ c ≠ '#' := by
  unfold plainPath
  simp [List.all_eq_true, and_assoc]

namespace url

open encoding

/-- `parseHost` accepts a plain host as it is. -/
theorem parseHost_plain (h : GoString) (hh : plainHost h = true) : parseHost h = .ok h := by
  obtain ⟨hne, hall⟩ := (plainHost_iff h).1 hh
  have hbr : strings.HasPrefix h "[" = false := by
    cases h with
    | nil => exact absurd rfl hne
    | cons a t =>
      have := (hostAlphabet_facts a (hall a (List.mem_cons_self _ _))).2.2.2.2.2.2.1
      simp [strings.HasPrefix, List.isPrefixOf, this.symm]
  have hcolon : strings.LastIndex h ":" = none :=
    strings.LastIndex_single_of_not_mem ':' h fun hm =>
      (hostAlphabet_facts _ (hall _ hm)).2.2.2.2.2.1 rfl
  have hun : unescape encodeHost h = .ok h :=
    unescape_of_plain encodeHost (by decide) h fun c hc =>
      ⟨(hostAlphabet_facts c (hall c hc)).2.2.2.2.2.2.2.1, fun hx => by
        have := (hostAlphabet_facts c (hall c hc)).1
        rw [this] at hx
        exact Bool.noConfusion hx.2.2⟩
  unfold parseHost
  rw [hbr, hcolon]
  exact hun

/-- `parseAuthority` reads a plain host as a host without a user. -/
theorem parseAuthority_plain (h : GoString) (hh : plainHost h = true) :
    parseAuthority h = .ok (none, h) := by
  obtain ⟨-, hall⟩ := (plainHost_iff h).1 hh
  have hat : strings.LastIndex h "@" = none :=
    strings.LastIndex_single_of_not_mem '@' h fun hm =>
      (hostAlphabet_facts _ (hall _ hm)).2.2.2.2.1 rfl
  unfold parseAuthority
  rw [hat]
  dsimp only
  rw [parseHost_plain h hh]
  rfl

/-- `parse` reads `scheme://host` followed by a path without `?` as the
scheme, the host and the path. -/
theorem parse_plain (sch h path : GoString) (v : Bool)
    (hsch : sch = ("http" : GoString) ∨ sch = ("https" : GoString))
    (hh : plainHost h = true) (hpath : path = [] ∨ ∃ q, path = '/' :: q)
    (hq : '?' ∉ path) (hctl : stringContainsCTLByte path = false) :
    parse (sch ++ ("://" : GoString) ++ h ++ path) v
      = URL.setPath { Scheme := sch, Host := h } path := by
  obtain ⟨hne, hall⟩ := (plainHost_iff h).1 hh
  have hctlh : stringContainsCTLByte h = false := by
    unfold stringContainsCTLByte
    rw [List.any_eq_false]
    intro c hc
    simpa using (hostAlphabet_facts c (hall c hc)).2.2.2.2.2.2.2.2
  have hqh : '?' ∉ h := fun hm => (hostAlphabet_facts _ (hall _ hm)).2.2.1 rfl
  have hsh : '/' ∉ h := fun hm => (hostAlphabet_facts _ (hall _ hm)).2.1 rfl
  have hqrest : '?' ∉ (("//" : GoString) ++ h ++ path) := by
    intro hm
    rw [List.mem_append, List.mem_append] at hm
    rcases hm with (hm | hm) | hm
    · revert hm; decide
    · exact hqh hm
    · exact hq hm
  have hidx : (match strings.Index (h ++ path) "/" with
      | some i => ((h ++ path).take i, (h ++ path).drop i)
      | none => (h ++ path, [])) = (h, path) := by
    rcases hpath with rfl | ⟨q, rfl⟩
    · have hi : strings.Index (h ++ []) ("/" : GoString) = none := by
        rw [List.append_nil]
        exact strings.Index_single_of_not_mem '/' h hsh
      rw [hi, List.append_nil]
    · have hi : strings.Index (h ++ '/' :: q) ("/" : GoString) = some h.length :=
        strings.Index_single_append '/' q h hsh
      rw [hi]
      simp
  have hmain : ∀ s : GoString, (s = ("http" : GoString) ∨ s = ("https" : GoString)) →
      stringContainsCTLByte s = false ∧ strings.ToLower s = s ∧ s ≠ []
        ∧ getScheme (s ++ ("://" : GoString) ++ h ++ path)
          = .ok (s, ("//" : GoString) ++ h ++ path)
        ∧ (s ++ ("://" : GoString) ++ h ++ path).isEmpty = false
        ∧ s ++ ("://" : GoString) ++ h ++ path ≠ ("*" : GoString) := by
    intro s hs
    rcases hs with rfl | rfl
    · refine ⟨by decide, by decide, by decide, rfl, rfl, ?_⟩
      intro e
      have e2 : 'h' :: ((("ttp" : GoString) ++ ("://" : GoString) ++ h ++ path)) = ['*'] := e
      injection e2 with e1 _
      exact absurd e1 (by decide)
    · refine ⟨by decide, by decide, by decide, rfl, rfl, ?_⟩
      intro e
      have e2 : 'h' :: ((("ttps" : GoString) ++ ("://" : GoString) ++ h ++ path)) = ['*'] := e
      injection e2 with e1 _
      exact absurd e1 (by decide)
  obtain ⟨hc1, hlow, hsne, hget, hemp, hstar⟩ := hmain sch hsch
  have hctlall : stringContainsCTLByte (sch ++ ("://" : GoString) ++ h ++ path) = false := by
    rw [stringContainsCTLByte_append, stringContainsCTLByte_append,
      stringContainsCTLByte_append, hc1, hctlh, hctl]
    decide
  unfold parse
  rw [hctlall, hemp, hget]
  simp only [Bool.false_eq_true, if_false, false_and, if_neg hstar]
  have hsuf : strings.HasSuffix (("//" : GoString) ++ h ++ path) ("?" : GoString) = false :=
    strings.HasSuffix_single_of_not_mem '?' _ hqrest
  have hcut : strings.Cut (("//" : GoString) ++ h ++ path) ("?" : GoString)
      = (("//" : GoString) ++ h ++ path, [], false) :=
    strings.Cut_single_of_not_mem '?' _ hqrest
  rw [hsuf, hcut]
  simp only [Bool.false_eq_true, if_false, false_and]
  rw [hlow]
  unfold parseRest
  have hp1 : strings.HasPrefix (("//" : GoString) ++ h ++ path) "/" = true := rfl
  have hp2 : strings.HasPrefix (("//" : GoString) ++ h ++ path) "//" = true := by
    show List.isPrefixOf ['/', '/'] ('/' :: '/' :: (h ++ path)) = true
    simp [List.isPrefixOf]
  rw [hp1]
  simp only [Bool.not_true, Bool.false_eq_true, if_false]
  unfold parseAuthorityAndPath
  rw [hp2]
  have hcond : ((({ Scheme := sch, RawQuery := [] } : URL).Scheme ≠ [])
      ∨ ((!v) = true ∧ (!strings.HasPrefix (("//" : GoString) ++ h ++ path) "///") = true))
      ∧ true = true := ⟨Or.inl hsne, rfl⟩
  rw [if_pos hcond]
  have hdrop : ((("//" : GoString) ++ h ++ path).drop 2) = h ++ path := rfl
  simp only [hdrop]
  rw [hidx]
  dsimp only
  rw [parseAuthority_plain h hh]

end url

/-- `setPath` keeps a path without `%` as it is. -/
theorem url.setPath_plain (u : url.URL) (path : GoString) (hpct : '%' ∉ path) :
    ∃ raw, url.URL.setPath u path = .ok { u with Path := path, RawPath := raw } := by
  have hun : url.unescape url.encoding.encodePath path = .ok path :=
    url.unescape_of_plain _ (by decide) path fun c hc =>
      ⟨fun e => hpct (e ▸ hc), fun hx => by
        rcases hx.1 with hx1 | hx1 <;> exact absurd hx1 (by decide)⟩
  unfold url.URL.setPath
  rw [hun]
  exact ⟨_, rfl⟩

/-- The string of the URL `scheme://host` for a plain host. -/
theorem url.String_plain (sch h : GoString) (hsch : sch ≠ []) (hh : plainHost h = true) :
    url.URL.String { Scheme := sch, Host := h } = sch ++ ("://" : GoString) ++ h := by
  obtain ⟨hne, hall⟩ := (plainHost_iff h).1 hh
  have hesc : url.escape h url.encoding.encodeHost = h :=
    url.escape_of_plain _ (by decide) h fun c hc => (hostAlphabet_facts c (hall c hc)).1
  have hpath : url.URL.EscapedPath { Scheme := sch, Host := h } = [] := rfl
  have hauth : url.URL.authorityString { Scheme := sch, Host := h }
      = ("//" : GoString) ++ h := by
    unfold url.URL.authorityString
    simp only [ne_eq, hsch, not_false_eq_true, true_or, if_true, hne, and_false, false_and,
      if_false, hesc]
    rfl
  unfold url.URL.String url.URL.hierString
  simp only [hpath, hauth, ne_eq, hsch, not_false_eq_true, if_true, not_true_eq_false,
    if_false, false_and, Bool.false_eq_true, false_or, List.append_nil, and_false]
  have hne2 : sch ++ (":" : GoString) ++ (("//" : GoString) ++ h) ≠ [] := by
    intro e
    exact hsch (List.append_eq_nil.1 (List.append_eq_nil.1 e).1).1
  simp only [hne2, false_and, if_false]
  show sch ++ [':'] ++ (['/', '/'] ++ h) = sch ++ [':', '/', '/'] ++ h
  simp

/-- `NewParseClient` accepts `scheme://host` for a plain host. -/
theorem NewParseClient_plain (sch h applicationID apiKey : GoString)
    (hsch : sch = ("http" : GoString) ∨ sch = ("https" : GoString))
    (hh : plainHost h = true) :
    NewParseClient (sch ++ ("://" : GoString) ++ h) applicationID apiKey
      = .ok { apiBaseURL := { Scheme := sch, Host := h },
              applicationID := applicationID, restAPIKey := apiKey } := by
  obtain ⟨hne, hall⟩ := (plainHost_iff h).1 hh
  have hsuf : strings.HasSuffix (sch ++ ("://" : GoString) ++ h) ("/" : GoString) = false := by
    cases hs : strings.HasSuffix (sch ++ ("://" : GoString) ++ h) ("/" : GoString) with
    | false => rfl
    | true =>
      obtain ⟨t, ht⟩ := (strings.HasSuffix_iff _ _).1 hs
      have h1 := congrArg List.getLast? ht
      rw [List.getLast?_append_of_ne_nil _ hne] at h1
      have h2 : (t ++ ("/" : GoString)).getLast? = some '/' := by
        show (t ++ ['/']).getLast? = some '/'
        simp
      rw [h2] at h1
      have hmem : '/' ∈ h := List.mem_of_getLast?_eq_some h1
      exact absurd rfl (hostAlphabet_facts _ (hall _ hmem)).2.1
  have hparse := url.parse_plain sch h [] true hsch hh (Or.inl rfl) (by simp) rfl
  rw [List.append_nil] at hparse
  unfold NewParseClient url.ParseRequestURI
  rw [strings.TrimSuffix_of_not_hasSuffix _ _ hsuf, hparse]
  rfl

theorem strings.mem_of_mem_TrimPrefix (s p : GoString) (c : Char)
    (h : c ∈ strings.TrimPrefix s p) : c ∈ s := by
  unfold strings.TrimPrefix at h
  split at h
  · exact List.mem_of_mem_drop h
  · exact h

/-- `url.Parse` accepts the URL that a client of `scheme://host` composes for a
plain resource path. -/
theorem url.Parse_composed_plain (sch h p : GoString)
    (hsch : sch = ("http" : GoString) ∨ sch = ("https" : GoString))
    (hh : plainHost h = true) (hp : plainPath p = true) :
    ∃ raw, url.Parse (sch ++ ("://" : GoString) ++ h ++ ("/" : GoString)
        ++ strings.TrimPrefix p "/")
      = .ok { Scheme := sch, Host := h, Path := '/' :: strings.TrimPrefix p "/",
              RawPath := raw } := by
  obtain ⟨hne, hall⟩ := (plainHost_iff h).1 hh
  have hp' : ∀ c ∈ strings.TrimPrefix p "/",
      (c.toNat < 0x20 || c.toNat == 0x7f) = false ∧ c ≠ '%' ∧ c ≠ '?' ∧ c ≠ '#' :=
    fun c hc => (plainPath_iff p).1 hp c (strings.mem_of_mem_TrimPrefix _ _ _ hc)
  generalize strings.TrimPrefix p "/" = q at hp'
  have hassoc : sch ++ ("://" : GoString) ++ h ++ ("/" : GoString) ++ q
      = sch ++ ("://" : GoString) ++ h ++ ('/' :: q) := by
    show sch ++ ("://" : GoString) ++ h ++ ['/'] ++ q = _
    simp
  have hsharp : '#' ∉ sch ++ ("://" : GoString) ++ h ++ ('/' :: q) := by
    intro hm
    rw [List.mem_append, List.mem_append, List.mem_append] at hm
    rcases hm with ((hm | hm) | hm) | hm
    · rcases hsch with rfl | rfl <;> revert hm <;> decide
    · revert hm; decide
    · exact (hostAlphabet_facts _ (hall _ hm)).2.2.2.1 rfl
    · rcases List.mem_cons.1 hm with hm | hm
      · exact absurd hm (by decide)
      · exact (hp' _ hm).2.2.2 rfl
  have hq : '?' ∉ ('/' :: q) := by
    intro hm
    rcases List.mem_cons.1 hm with hm | hm
    · exact absurd hm (by decide)
    · exact (hp' _ hm).2.2.1 rfl
  have hpct : '%' ∉ ('/' :: q) := by
    intro hm
    rcases List.mem_cons.1 hm with hm | hm
    · exact absurd hm (by decide)
    · exact (hp' _ hm).2.1 rfl
  have hctl : url.stringContainsCTLByte ('/' :: q) = false := by
    unfold url.stringContainsCTLByte
    rw [List.any_eq_false]
    intro c hc
    rcases List.mem_cons.1 hc with hc | hc
    · subst hc; decide
    · simpa using (hp' c hc).1
  have hcut : strings.Cut (sch ++ ("://" : GoString) ++ h ++ ('/' :: q)) ("#" : GoString)
      = (sch ++ ("://" : GoString) ++ h ++ ('/' :: q), [], false) :=
    strings.Cut_single_of_not_mem '#' _ hsharp
  obtain ⟨raw, hset⟩ := url.setPath_plain { Scheme := sch, Host := h } ('/' :: q) hpct
  refine ⟨raw, ?_⟩
  rw [hassoc]
  unfold url.Parse
  rw [hcut]
  dsimp only
  rw [url.parse_plain sch h ('/' :: q) false hsch hh (Or.inr ⟨q, rfl⟩) hq hctl, hset]
  rfl

/-- With no body and a valid method, `prepareHTTPRequest` fails exactly when
`url.Parse` refuses the composed URL. -/
theorem prepareHTTPRequest_none {β : Type} (marshal : β → Except GoError GoString)
    (c : ParseClient) (method p : GoString) (hne : method ≠ [])
    (hvalid : http.validMethod method = true) :
    c.prepareHTTPRequest marshal method p none
      = match url.Parse (c.requestURL p) with
        | .error err => .error err
        | .ok u => .ok (c.setHeaders {
            Method := method
            URL := { u with Host := http.removeEmptyPort u.Host }
            Header := []
            Body := none
            ContentLength := 0
            Host := http.removeEmptyPort u.Host }) := by
  unfold ParseClient.prepareHTTPRequest http.NewRequest
  dsimp only
  rw [if_neg hne, hvalid]
  cases url.Parse (c.requestURL p) with
  | error e => rfl
  | ok u => rfl

theorem http.validMethod_verbs (method : GoString)
    (hm : method ∈ [http.MethodGet, http.MethodPost, http.MethodPut, http.MethodDelete]) :
    method ≠ [] ∧ http.validMethod method = true := by
  simp only [List.mem_cons, List.mem_singleton, List.not_mem_nil, or_false] at hm
  rcases hm with rfl | rfl | rfl | rfl <;> exact ⟨by decide, by decide⟩

/-! ### Base URLs of the form `scheme://…` and well-formed resource paths -/

namespace strings

theorem Index_single_some (a : Char) :
    ∀ (s : GoString) (i : Nat), Index s [a] = some i →
      ∃ pre post, s = pre ++ a :: post ∧ a ∉ pre ∧ pre.length = i := by
  intro s
  induction s with
  | nil => intro i h; simp [Index] at h
  | cons c t ih =>
    intro i h
    by_cases hc : a = c
    · subst hc
      have h0 : Index (a :: t) [a] = some 0 := by simp [Index, List.isPrefixOf]
      rw [h0] at h
      injection h with h
      exact ⟨[], t, rfl, by simp, h⟩
    · have h1 : Index (c :: t) [a] = (Index t [a]).map (· + 1) := by
        simp [Index, List.isPrefixOf, hc]
      rw [h1] at h
      cases hj : Index t [a] with
      | none => rw [hj] at h; cases h
      | some j =>
        rw [hj] at h
        injection h with h
        obtain ⟨pre, post, hs, hpre, hlen⟩ := ih j hj
        refine ⟨c :: pre, post, by rw [hs]; rfl, ?_, by simp [hlen, h]⟩
        intro hm
        rcases List.mem_cons.1 hm with hm | hm
        · exact hc hm
        · exact hpre hm

theorem Index_single_none (a : Char) :
    ∀ s : GoString, Index s [a] = none → a ∉ s := by
  intro s
  induction s with
  | nil => intro _; simp
  | cons c t ih =>
    intro h
    by_cases hc : a = c
    · subst hc
      simp [Index, List.isPrefixOf] at h
    · have h1 : Index (c :: t) [a] = (Index t [a]).map (· + 1) := by
        simp [Index, List.isPrefixOf, hc]
      rw [h1] at h
      cases hj : Index t [a] with
      | some j => rw [hj] at h; cases h
      | none =>
        intro hm
        rcases List.mem_cons.1 hm with hm | hm
        · exact hc hm
        · exact ih hj hm

theorem Index_single_append_of_not_mem (a : Char) (t : GoString) :
    ∀ s : GoString, a ∉ s → Index (s ++ t) [a] = (Index t [a]).map (· + s.length) := by
  intro s
  induction s with
  | nil => intro _; rw [List.nil_append]; cases Index t [a] <;> simp
  | cons c u ih =>
    intro h
    have hc : a ≠ c := fun e => h (e ▸ List.mem_cons_self _ _)
    have hu : a ∉ u := fun e => h (List.mem_cons_of_mem _ e)
    have h1 : Index (c :: (u ++ t)) [a] = (Index (u ++ t) [a]).map (· + 1) := by
      simp [Index, List.isPrefixOf, hc]
    rw [List.cons_append, h1, ih hu]
    cases Index t [a] <;> simp [Nat.add_assoc]

theorem Cut_single_append_of_not_mem (a : Char) (s t : GoString) (h : a ∉ s) :
    Cut (s ++ t) [a] = (s ++ (Cut t [a]).1, (Cut t [a]).2.1, (Cut t [a]).2.2) := by
  unfold Cut
  rw [Index_single_append_of_not_mem a t s h]
  cases Index t [a] with
  | none => rfl
  | some i =>
    have h1 : (s ++ t).take (i + s.length) = s ++ t.take i := by
      rw [Nat.add_comm, List.take_append]
    have h2 : (s ++ t).drop (i + s.length + [a].length) = t.drop (i + [a].length) := by
      rw [show i + s.length + [a].length = s.length + (i + [a].length) by omega,
        List.drop_append]
    simp only [Option.map_some', h1, h2]

/-- When the text ends with `a` and holds `a` once, cutting its last byte off
is cutting at the first `a`. -/
theorem take_of_Count_one (a : Char) (s : GoString) (hs : HasSuffix s [a] = true)
    (hc : Count s [a] = 1) : s.take (s.length - 1) = (Cut s [a]).1 := by
  obtain ⟨A, hA⟩ := (HasSuffix_iff _ _).1 hs
  have hmem : a ∈ s := by rw [hA]; simp
  cases hi : Index s [a] with
  | none => exact absurd hmem (Index_single_none a s hi)
  | some i =>
    obtain ⟨pre, post, hdec, hpre, hlen⟩ := Index_single_some a s i hi
    have hdrop : s.drop (i + [a].length) = post := by
      rw [hdec, ← hlen, show pre.length + [a].length = pre.length + 1 from rfl,
        ← List.drop_drop, List.drop_left]
      rfl
    have hcount : countLoop s.length post [a] = 0 := by
      unfold Count at hc
      simp only [List.isEmpty_cons, Bool.false_eq_true, if_false] at hc
      unfold countLoop at hc
      rw [hi] at hc
      dsimp only at hc
      rw [hdrop] at hc
      omega
    have hpost : a ∉ post := by
      have hpos : 0 < s.length := List.length_pos.2 (List.ne_nil_of_mem hmem)
      obtain ⟨n, hn⟩ : ∃ n, s.length = n + 1 := ⟨s.length - 1, by omega⟩
      rw [hn] at hcount
      unfold countLoop at hcount
      cases hj : Index post [a] with
      | none => exact Index_single_none a post hj
      | some j => rw [hj] at hcount; simp at hcount
    have hnil : post = [] := by
      cases hp : post with
      | nil => rfl
      | cons x xs =>
        exfalso
        have hne : post ≠ [] := by rw [hp]; simp
        have h1 : s.getLast? = post.getLast? := by
          rw [hdec, List.getLast?_append_of_ne_nil _ (by simp), hp,
            List.getLast?_cons_cons]
        have h2 : s.getLast? = some a := by rw [hA]; simp
        rw [h2] at h1
        exact hpost (List.mem_of_getLast?_eq_some h1.symm)
    have hcut : (Cut s [a]).1 = pre := by
      unfold Cut
      rw [hi]
      dsimp only
      rw [hdec, ← hlen, List.take_left]
    rw [hcut, hdec, hnil]
    simp

end strings

namespace url

open encoding

/-- Text added after a URL with a scheme is added to what follows the
scheme. -/
theorem getSchemeLoop_append (R R' x : GoString) :
    ∀ (s pre sch rest : GoString), getSchemeLoop R pre s = .ok (sch, rest) → sch ≠ [] →
      getSchemeLoop R' pre (s ++ x) = .ok (sch, rest ++ x) := by
  intro s
  induction s with
  | nil =>
    intro pre sch rest h hne
    simp only [getSchemeLoop, Except.ok.injEq, Prod.mk.injEq] at h
    exact absurd h.1.symm hne
  | cons c t ih =>
    intro pre sch rest h hne
    rw [List.cons_append]
    unfold getSchemeLoop at h ⊢
    by_cases h1 : ('a' ≤ c ∧ c ≤ 'z') ∨ ('A' ≤ c ∧ c ≤ 'Z')
    · rw [if_pos h1] at h ⊢
      exact ih _ _ _ h hne
    · rw [if_neg h1] at h ⊢
      by_cases h2 : ('0' ≤ c ∧ c ≤ '9') ∨ c = '+' ∨ c = '-' ∨ c = '.'
      · rw [if_pos h2] at h ⊢
        cases hpre : pre.isEmpty with
        | true =>
          simp only [hpre, if_true, Except.ok.injEq, Prod.mk.injEq] at h
          exact absurd h.1.symm hne
        | false =>
          simp only [hpre, Bool.false_eq_true, if_false] at h ⊢
          exact ih _ _ _ h hne
      · rw [if_neg h2] at h ⊢
        by_cases h3 : c = ':'
        · rw [if_pos h3] at h ⊢
          cases hpre : pre.isEmpty with
          | true => simp [hpre] at h
          | false =>
            simp only [hpre, Bool.false_eq_true, if_false, Except.ok.injEq,
              Prod.mk.injEq] at h ⊢
            exact ⟨h.1, by rw [h.2]⟩
        · rw [if_neg h3] at h
          simp only [Except.ok.injEq, Prod.mk.injEq] at h
          exact absurd h.1.symm hne

/-- What follows the scheme is the end of the text, and the text before it
holds no `?` and no `#`. -/
theorem getSchemeLoop_suffix (R : GoString) :
    ∀ (s pre sch rest : GoString), getSchemeLoop R pre s = .ok (sch, rest) → sch ≠ [] →
      ∃ mid, s = mid ++ ':' :: rest ∧ '?' ∉ mid ∧ '#' ∉ mid := by
  intro s
  induction s with
  | nil =>
    intro pre sch rest h hne
    simp only [getSchemeLoop, Except.ok.injEq, Prod.mk.injEq] at h
    exact absurd h.1.symm hne
  | cons c t ih =>
    intro pre sch rest h hne
    unfold getSchemeLoop at h
    have hstep : ∀ mid, ('?' ∉ mid ∧ '#' ∉ mid) → c ≠ '?' → c ≠ '#' →
        ('?' ∉ c :: mid ∧ '#' ∉ c :: mid) := by
      intro mid hmid h1 h2
      constructor
      · intro hm
        rcases List.mem_cons.1 hm with hm | hm
        · exact h1 hm.symm
        · exact hmid.1 hm
      · intro hm
        rcases List.mem_cons.1 hm with hm | hm
        · exact h2 hm.symm
        · exact hmid.2 hm
    by_cases h1 : ('a' ≤ c ∧ c ≤ 'z') ∨ ('A' ≤ c ∧ c ≤ 'Z')
    · rw [if_pos h1] at h
      obtain ⟨mid, hmid, hno⟩ := ih _ _ _ h hne
      refine ⟨c :: mid, by rw [hmid]; rfl, hstep mid hno ?_ ?_⟩
      · rintro rfl; revert h1; decide
      · rintro rfl; revert h1; decide
    · rw [if_neg h1] at h
      by_cases h2 : ('0' ≤ c ∧ c ≤ '9') ∨ c = '+' ∨ c = '-' ∨ c = '.'
      · rw [if_pos h2] at h
        cases hpre : pre.isEmpty with
        | true =>
          simp only [hpre, if_true, Except.ok.injEq, Prod.mk.injEq] at h
          exact absurd h.1.symm hne
        | false =>
          simp only [hpre, Bool.false_eq_true, if_false] at h
          obtain ⟨mid, hmid, hno⟩ := ih _ _ _ h hne
          refine ⟨c :: mid, by rw [hmid]; rfl, hstep mid hno ?_ ?_⟩
          · rintro rfl; revert h2; decide
          · rintro rfl; revert h2; decide
      · rw [if_neg h2] at h
        by_cases h3 : c = ':'
        · rw [if_pos h3] at h
          cases hpre : pre.isEmpty with
          | true => simp [hpre] at h
          | false =>
            simp only [hpre, Bool.false_eq_true, if_false, Except.ok.injEq,
              Prod.mk.injEq] at h
            exact ⟨[], by rw [h3, h.2]; rfl, by simp, by simp⟩
        · rw [if_neg h3] at h
          simp only [Except.ok.injEq, Prod.mk.injEq] at h
          exact absurd h.1.symm hne

/-- After a text whose escapes are complete, `unescape` goes on with what
follows. -/
theorem unescape_append (mode : encoding) (b : GoString) :
    ∀ (n : Nat) (a a' : GoString), a.length ≤ n → unescape mode a = .ok a' →
      unescape mode (a ++ b) = (unescape mode b).map (a' ++ ·) := by
  intro n
  generalize hub : unescape mode b = ub
  induction n with
  | zero =>
    intro a a' hlen h
    have ha : a = [] := List.length_eq_zero.1 (Nat.le_zero.1 hlen)
    subst ha
    simp only [unescape, Except.ok.injEq] at h
    subst h
    rw [List.nil_append, hub]
    cases ub <;> rfl
  | succ n ih =>
    intro a a' hlen h
    cases a with
    | nil =>
      simp only [unescape, Except.ok.injEq] at h
      subst h
      rw [List.nil_append, hub]
      cases ub <;> rfl
    | cons c cs =>
      rw [List.cons_append]
      unfold unescape at h ⊢
      by_cases hc : c = '%'
      · rw [if_pos hc] at h ⊢
        cases cs with
        | nil => cases h
        | cons x cs' =>
          cases cs' with
          | nil => cases h
          | cons y rest =>
            simp only [List.cons_append] at h ⊢
            by_cases c1 : (!(ishex x && ishex y)) = true
            · rw [if_pos c1] at h; cases h
            · rw [if_neg c1] at h ⊢
              by_cases c2 : mode = encodeHost ∧ unhex x < 8 ∧ [c, x, y] ≠ ['%', '2', '5']
              · rw [if_pos c2] at h; cases h
              · rw [if_neg c2] at h ⊢
                by_cases c3 : mode = encodeZone ∧ [c, x, y] ≠ ['%', '2', '5']
                    ∧ Char.ofNat (unhex x * 16 + unhex y) ≠ ' '
                    ∧ shouldEscape (Char.ofNat (unhex x * 16 + unhex y)) encodeHost = true
                · rw [if_pos c3] at h; cases h
                · rw [if_neg c3] at h ⊢
                  cases hr : unescape mode rest with
                  | error e => rw [hr] at h; cases h
                  | ok r' =>
                    rw [hr] at h
                    simp only [Except.map, Except.ok.injEq] at h
                    subst h
                    have hlen' : rest.length ≤ n := by
                      simp only [List.length_cons] at hlen
                      omega
                    rw [ih rest r' hlen' hr]
                    cases ub <;> rfl
      · rw [if_neg hc] at h ⊢
        have hlen' : cs.length ≤ n := by
          simp only [List.length_cons] at hlen
          omega
        by_cases hplus : c = '+'
        · rw [if_pos hplus] at h ⊢
          cases hr : unescape mode cs with
          | error e => rw [hr] at h; cases h
          | ok r' =>
            rw [hr] at h
            simp only [Except.map, Except.ok.injEq] at h
            subst h
            rw [ih cs r' hlen' hr]
            cases ub <;> rfl
        · rw [if_neg hplus] at h ⊢
          by_cases c4 : (mode = encodeHost ∨ mode = encodeZone) ∧ c.toNat < 0x80
              ∧ shouldEscape c encodeHost = true
          · rw [if_pos c4] at h; cases h
          · rw [if_neg c4] at h ⊢
            cases hr : unescape mode cs with
            | error e => rw [hr] at h; cases h
            | ok r' =>
              rw [hr] at h
              simp only [Except.map, Except.ok.injEq] at h
              subst h
              rw [ih cs r' hlen' hr]
              cases ub <;> rfl

end url

namespace url

open encoding

/-- Outside a host, `unescape` accepts exactly the texts with well-formed
escapes. -/
theorem unescape_ok_iff (mode : encoding) (hh : mode ≠ encodeHost) (hz : mode ≠ encodeZone) :
    ∀ (n : Nat) (s : GoString), s.length ≤ n →
      ((∃ y, unescape mode s = .ok y) ↔ validEscapes s = true) := by
  intro n
  induction n with
  | zero =>
    intro s hlen
    have hs : s = [] := List.length_eq_zero.1 (Nat.le_zero.1 hlen)
    subst hs
    exact ⟨fun _ => rfl, fun _ => ⟨[], rfl⟩⟩
  | succ n ih =>
    intro s hlen
    cases s with
    | nil => exact ⟨fun _ => rfl, fun _ => ⟨[], rfl⟩⟩
    | cons c cs =>
      unfold unescape validEscapes
      by_cases hc : c = '%'
      · rw [if_pos hc, if_pos hc]
        cases cs with
        | nil => exact ⟨fun ⟨_, h⟩ => (by cases h), fun h => (by cases h)⟩
        | cons x cs' =>
          cases cs' with
          | nil => exact ⟨fun ⟨_, h⟩ => (by cases h), fun h => (by cases h)⟩
          | cons y rest =>
            have hlen' : rest.length ≤ n := by
              simp only [List.length_cons] at hlen
              omega
            have c2 : ¬(mode = encodeHost ∧ unhex x < 8 ∧ [c, x, y] ≠ ['%', '2', '5']) :=
              fun e => hh e.1
            have c3 : ¬(mode = encodeZone ∧ [c, x, y] ≠ ['%', '2', '5']
                ∧ Char.ofNat (unhex x * 16 + unhex y) ≠ ' '
                ∧ shouldEscape (Char.ofNat (unhex x * 16 + unhex y)) encodeHost = true) :=
              fun e => hz e.1
            dsimp only
            cases hxy : (ishex x && ishex y) with
            | false =>
              simp only [Bool.not_false, if_true, Bool.false_and]
              exact ⟨fun ⟨_, h⟩ => (by cases h), fun h => (by cases h)⟩
            | true =>
              simp only [Bool.not_true, Bool.false_eq_true, if_false, if_neg c2, if_neg c3,
                Bool.true_and]
              rw [← ih rest hlen']
              constructor
              · rintro ⟨y', hy⟩
                cases hr : unescape mode rest with
                | error e => rw [hr] at hy; cases hy
                | ok r' => exact ⟨r', rfl⟩
              · rintro ⟨r', hr⟩
                rw [hr]
                exact ⟨_, rfl⟩
      · rw [if_neg hc, if_neg hc]
        have hlen' : cs.length ≤ n := by
          simp only [List.length_cons] at hlen
          omega
        have c4 : ¬((mode = encodeHost ∨ mode = encodeZone) ∧ c.toNat < 0x80
            ∧ shouldEscape c encodeHost = true) := fun e => e.1.elim hh hz
        rw [← ih cs hlen']
        by_cases hplus : c = '+'
        · rw [if_pos hplus]
          constructor
          · rintro ⟨y', hy⟩
            cases hr : unescape mode cs with
            | error e => rw [hr] at hy; cases hy
            | ok r' => exact ⟨r', rfl⟩
          · rintro ⟨r', hr⟩
            rw [hr]
            exact ⟨_, rfl⟩
        · rw [if_neg hplus, if_neg c4]
          constructor
          · rintro ⟨y', hy⟩
            cases hr : unescape mode cs with
            | error e => rw [hr] at hy; cases hy
            | ok r' => exact ⟨r', rfl⟩
          · rintro ⟨r', hr⟩
            rw [hr]
            exact ⟨_, rfl⟩

theorem setPath_ok_iff (u : URL) (path : GoString) :
    (∃ w, URL.setPath u path = .ok w) ↔ ∃ y, unescape encodePath path = .ok y := by
  unfold URL.setPath
  cases unescape encodePath path with
  | error e => exact ⟨fun ⟨_, h⟩ => (by cases h), fun ⟨_, h⟩ => (by cases h)⟩
  | ok y => exact ⟨fun _ => ⟨y, rfl⟩, fun _ => ⟨_, rfl⟩⟩

theorem setFragment_ok_iff (u : URL) (f : GoString) :
    (∃ w, URL.setFragment u f = .ok w) ↔ ∃ y, unescape encodeFragment f = .ok y := by
  unfold URL.setFragment
  cases unescape encodeFragment f with
  | error e => exact ⟨fun ⟨_, h⟩ => (by cases h), fun ⟨_, h⟩ => (by cases h)⟩
  | ok y => exact ⟨fun _ => ⟨y, rfl⟩, fun _ => ⟨_, rfl⟩⟩

end url

/-- The authority of `r` followed by `/` and more text is the authority of
`r`, and the path is the path of `r` followed by that text. -/
theorem authorityCut_append (r x : GoString) :
    authorityCut (r ++ '/' :: x) = ((authorityCut r).1, (authorityCut r).2 ++ '/' :: x) := by
  unfold authorityCut
  cases hi : strings.Index r ("/" : GoString) with
  | none =>
    have hmem : '/' ∉ r := strings.Index_single_none '/' r hi
    have h2 : strings.Index (r ++ '/' :: x) ("/" : GoString) = some r.length :=
      strings.Index_single_append '/' x r hmem
    rw [h2]
    simp
  | some i =>
    obtain ⟨pre, post, hdec, hpre, hlen⟩ := strings.Index_single_some '/' r i hi
    have h2 : strings.Index (r ++ '/' :: x) ("/" : GoString) = some i := by
      rw [hdec, List.append_assoc, List.cons_append, ← hlen]
      exact strings.Index_single_append '/' (post ++ '/' :: x) pre hpre
    rw [h2]
    dsimp only
    rw [hdec, ← hlen, List.append_assoc, List.take_left, List.take_left, List.drop_left,
      List.drop_left]

namespace url

open encoding

/-- With a scheme, `parseRest` reads `//` and what follows as an authority
and a path. -/
theorem parseRest_hier (u : URL) (r : GoString) (v : Bool) (hu : u.Scheme ≠ []) :
    parseRest u ('/' :: '/' :: r) v =
      match parseAuthority (authorityCut r).1 with
      | .error e => .error e
      | .ok (user, host) =>
        URL.setPath { u with User := user, Host := host } (authorityCut r).2 := by
  have hp1 : strings.HasPrefix ('/' :: '/' :: r) ("/" : GoString) = true := by
    show List.isPrefixOf ['/'] ('/' :: '/' :: r) = true
    simp [List.isPrefixOf]
  have hp2 : strings.HasPrefix ('/' :: '/' :: r) ("//" : GoString) = true := by
    show List.isPrefixOf ['/', '/'] ('/' :: '/' :: r) = true
    simp [List.isPrefixOf]
  unfold parseRest
  rw [hp1]
  simp only [Bool.not_true, Bool.false_eq_true, if_false]
  unfold parseAuthorityAndPath
  rw [hp2]
  have hcond : (u.Scheme ≠ [] ∨ ((!v) = true
      ∧ (!strings.HasPrefix ('/' :: '/' :: r) ("///" : GoString)) = true)) ∧ true = true :=
    ⟨Or.inl hu, rfl⟩
  rw [if_pos hcond]
  rfl

/-- What `parse` returns for a text of the form `scheme://…` without a control
byte: the authority and the path are those of the text between `//` and the
first `?`. -/
theorem parse_hier (X sch rest r : GoString) (v : Bool)
    (hctl : stringContainsCTLByte X = false)
    (hget : getScheme X = .ok (sch, rest)) (hsch : sch ≠ [])
    (hcut : (strings.Cut rest ("?" : GoString)).1 = '/' :: '/' :: r) :
    ∃ u1 : URL, u1.Scheme ≠ [] ∧ parse X v =
      match parseAuthority (authorityCut r).1 with
      | .error e => .error e
      | .ok (user, host) =>
        URL.setPath { u1 with User := user, Host := host } (authorityCut r).2 := by
  have hX : X.isEmpty = false := by
    cases X with
    | nil =>
      simp only [getScheme, getSchemeLoop, Except.ok.injEq, Prod.mk.injEq] at hget
      exact absurd hget.1.symm hsch
    | cons a t => rfl
  have hstar : X ≠ ("*" : GoString) := by
    intro e
    rw [e] at hget
    have h2 : getScheme ("*" : GoString) = .ok ([], ("*" : GoString)) := by decide
    rw [h2] at hget
    injection hget with hget
    injection hget with h1 _
    exact hsch h1.symm
  have hlow : strings.ToLower sch ≠ [] := by
    unfold strings.ToLower
    intro e
    exact hsch (List.map_eq_nil_iff.1 e)
  unfold parse
  rw [hctl, hX, hget]
  simp only [Bool.false_eq_true, if_false, false_and, if_neg hstar]
  by_cases hq : strings.HasSuffix rest ("?" : GoString) = true
      ∧ strings.Count rest ("?" : GoString) = 1
  · rw [if_pos hq]
    have ht : rest.take (rest.length - 1) = '/' :: '/' :: r := by
      rw [← hcut]
      exact strings.take_of_Count_one '?' rest hq.1 hq.2
    rw [ht]
    exact ⟨_, hlow, parseRest_hier _ r v hlow⟩
  · rw [if_neg hq, hcut]
    exact ⟨_, hlow, parseRest_hier _ r v hlow⟩

/-- `parse` accepts a text of the form `scheme://…` without a control byte
exactly when it accepts its authority and the escapes of its path. -/
theorem parse_hier_ok (X sch rest r : GoString) (v : Bool)
    (hctl : stringContainsCTLByte X = false)
    (hget : getScheme X = .ok (sch, rest)) (hsch : sch ≠ [])
    (hcut : (strings.Cut rest ("?" : GoString)).1 = '/' :: '/' :: r) :
    (∃ w, parse X v = .ok w) ↔
      (∃ a, parseAuthority (authorityCut r).1 = .ok a)
        ∧ ∃ y, unescape encodePath (authorityCut r).2 = .ok y := by
  obtain ⟨u1, -, hparse⟩ := parse_hier X sch rest r v hctl hget hsch hcut
  rw [hparse]
  cases ha : parseAuthority (authorityCut r).1 with
  | error e =>
    exact ⟨fun ⟨_, h⟩ => (by cases h), fun ⟨⟨_, h⟩, _⟩ => (by cases h)⟩
  | ok a =>
    obtain ⟨user, host⟩ := a
    dsimp only
    rw [setPath_ok_iff]
    exact ⟨fun h => ⟨⟨_, rfl⟩, h⟩, fun h => h.2⟩

/-- `parse` refuses a text with a control byte. -/
theorem parse_ctl (X : GoString) (v : Bool) (h : stringContainsCTLByte X = true) :
    parse X v = .error (.msg "net/url: invalid control character in URL") := by
  unfold parse
  rw [h]
  rfl

end url

/-- What `hasSchemeAndAuthority` says of a text: it is `scheme:` followed by
`//` and more. -/
theorem hasSchemeAndAuthority_iff (S : GoString) (h : hasSchemeAndAuthority S = true) :
    ∃ sch r mid, url.getScheme S = .ok (sch, '/' :: '/' :: r) ∧ sch ≠ []
      ∧ S = mid ++ ':' :: '/' :: '/' :: r ∧ '?' ∉ mid ∧ '#' ∉ mid := by
  unfold hasSchemeAndAuthority at h
  cases hg : url.getScheme S with
  | error e => rw [hg] at h; cases h
  | ok sr =>
    obtain ⟨sch, rest⟩ := sr
    rw [hg] at h
    simp only [Bool.and_eq_true, Bool.not_eq_true', List.isEmpty_eq_false] at h
    obtain ⟨hne, hpre⟩ := h
    have hne' : sch ≠ [] := by
      intro e
      rw [e] at hne
      simp at hne
    unfold strings.HasPrefix at hpre
    rw [List.isPrefixOf_iff_prefix] at hpre
    obtain ⟨r, hr⟩ := hpre
    have hr' : rest = '/' :: '/' :: r := hr.symm
    subst hr'
    obtain ⟨mid, hmid, hno⟩ := url.getSchemeLoop_suffix S S [] sch _ hg hne'
    exact ⟨sch, r, mid, rfl, hne', hmid, hno⟩

/-- `url.Parse` accepts a base URL string of the form `scheme://…` without `?`
and `#`, followed by `/` and a resource path, exactly when the resource path
is well formed, provided that it accepts the base URL string itself. -/
theorem url.Parse_composed_ok_iff (S q : GoString)
    (hS : hasSchemeAndAuthority S = true) (hq : '?' ∉ S) (hf : '#' ∉ S)
    (hok : ∃ u0, url.Parse S = .ok u0) :
    (∃ u, url.Parse (S ++ ("/" : GoString) ++ q) = .ok u) ↔ wellFormedResource q = true := by
  obtain ⟨sch, r, mid, hget, hsch, hdec, -⟩ := hasSchemeAndAuthority_iff S hS
  have hqr : '?' ∉ ('/' :: '/' :: r) := by
    intro hm
    apply hq
    rw [hdec]
    exact List.mem_append_right _ (List.mem_cons_of_mem _ hm)
  -- the base URL string
  have hcutS : strings.Cut S ("#" : GoString) = (S, [], false) :=
    strings.Cut_single_of_not_mem '#' S hf
  have hparseS : ∃ u0, url.parse S false = .ok u0 := by
    obtain ⟨u0, h0⟩ := hok
    unfold url.Parse at h0
    rw [hcutS] at h0
    dsimp only at h0
    cases hp : url.parse S false with
    | error e => rw [hp] at h0; cases h0
    | ok u => exact ⟨u, rfl⟩
  have hctlS : url.stringContainsCTLByte S = false := by
    cases hc : url.stringContainsCTLByte S with
    | false => rfl
    | true =>
      obtain ⟨u0, h0⟩ := hparseS
      rw [url.parse_ctl S false hc] at h0
      cases h0
  have hcutrest : (strings.Cut ('/' :: '/' :: r) ("?" : GoString)).1 = '/' :: '/' :: r := by
    have := strings.Cut_single_of_not_mem '?' _ hqr
    exact congrArg Prod.fst this
  obtain ⟨hauth, y0, hy0⟩ :=
    (url.parse_hier_ok S sch _ r false hctlS hget hsch hcutrest).1 hparseS
  -- the composed URL
  have hfS : '#' ∉ S ++ ("/" : GoString) := by
    intro hm
    rcases List.mem_append.1 hm with hm | hm
    · exact hf hm
    · revert hm; decide
  have hcutT : strings.Cut (S ++ ("/" : GoString) ++ q) ("#" : GoString)
      = (S ++ ("/" : GoString) ++ beforeFragment q, fragmentOf q,
          (strings.Cut q ("#" : GoString)).2.2) :=
    strings.Cut_single_append_of_not_mem '#' _ q hfS
  have hU : S ++ ("/" : GoString) ++ beforeFragment q = S ++ ('/' :: beforeFragment q) := by
    show S ++ ['/'] ++ beforeFragment q = _
    simp
  have hctlU : url.stringContainsCTLByte (S ++ ('/' :: beforeFragment q))
      = url.stringContainsCTLByte (beforeFragment q) := by
    rw [url.stringContainsCTLByte_append, hctlS]
    unfold url.stringContainsCTLByte
    simp only [List.any_cons, Bool.false_or]
    have : (decide (('/' : Char).toNat < 32) || ('/' : Char).toNat == 127) = false := by decide
    rw [this, Bool.false_or]
  have hgetU : url.getScheme (S ++ ('/' :: beforeFragment q))
      = .ok (sch, '/' :: '/' :: (r ++ '/' :: beforeFragment q)) :=
    url.getSchemeLoop_append S _ _ S [] sch _ hget hsch
  have hcutU : (strings.Cut ('/' :: '/' :: (r ++ '/' :: beforeFragment q)) ("?" : GoString)).1
      = '/' :: '/' :: (r ++ '/' :: pathOf q) := by
    have hq2 : '?' ∉ ('/' :: '/' :: r) ++ ['/'] := by
      intro hm
      rcases List.mem_append.1 hm with hm | hm
      · exact hqr hm
      · revert hm; decide
    have h1 : '/' :: '/' :: (r ++ '/' :: beforeFragment q)
        = (('/' :: '/' :: r) ++ ['/']) ++ beforeFragment q := by simp
    rw [h1]
    have := strings.Cut_single_append_of_not_mem '?' _ (beforeFragment q) hq2
    rw [show (("?" : GoString)) = ['?'] from rfl, this]
    show (('/' :: '/' :: r) ++ ['/']) ++ (strings.Cut (beforeFragment q) ['?']).1 = _
    unfold pathOf
    simp
  have hpathU : (∃ y, url.unescape url.encoding.encodePath
        ((authorityCut r).2 ++ '/' :: pathOf q) = .ok y) ↔ validEscapes (pathOf q) = true := by
    rw [url.unescape_append _ _ _ _ y0 (Nat.le_refl _) hy0]
    have hv : validEscapes ('/' :: pathOf q) = validEscapes (pathOf q) := by
      generalize hrhs : validEscapes (pathOf q) = rhs
      unfold validEscapes
      rw [if_neg (by decide)]
      exact hrhs
    rw [← hv, ← url.unescape_ok_iff url.encoding.encodePath (by decide) (by decide) _
      ('/' :: pathOf q) (Nat.le_refl _)]
    constructor
    · rintro ⟨y, hy⟩
      cases hr : url.unescape url.encoding.encodePath ('/' :: pathOf q) with
      | error e => rw [hr] at hy; cases hy
      | ok z => exact ⟨z, rfl⟩
    · rintro ⟨z, hz⟩
      rw [hz]
      exact ⟨_, rfl⟩
  have hparseU : (∃ u, url.parse (S ++ ('/' :: beforeFragment q)) false = .ok u) ↔
      url.stringContainsCTLByte (beforeFragment q) = false ∧ validEscapes (pathOf q) = true := by
    cases hc : url.stringContainsCTLByte (beforeFragment q) with
    | true =>
      rw [url.parse_ctl _ false (hctlU.trans hc)]
      exact ⟨fun ⟨_, h⟩ => (by cases h), fun h => (by cases h.1)⟩
    | false =>
      rw [url.parse_hier_ok _ sch _ _ false (hctlU.trans hc) hgetU hsch hcutU,
        authorityCut_append]
      dsimp only
      rw [hpathU]
      exact ⟨fun h => ⟨rfl, h.2⟩, fun h => ⟨hauth, h.2⟩⟩
  have hfrag : ∀ u : url.URL, (fragmentOf q = [] ∨ ∃ w, url.URL.setFragment u (fragmentOf q) = .ok w)
      ↔ validEscapes (fragmentOf q) = true := by
    intro u
    rw [url.setFragment_ok_iff,
      url.unescape_ok_iff url.encoding.encodeFragment (by decide) (by decide) _ _ (Nat.le_refl _)]
    constructor
    · rintro (h | h)
      · rw [h]; rfl
      · exact h
    · exact fun h => Or.inr h
  -- assembling
  unfold url.Parse wellFormedResource
  rw [hcutT]
  dsimp only
  rw [hU]
  cases hp : url.parse (S ++ ('/' :: beforeFragment q)) false with
  | error e =>
    have hno : ¬(url.stringContainsCTLByte (beforeFragment q) = false
        ∧ validEscapes (pathOf q) = true) := by
      intro h
      obtain ⟨u, hu⟩ := hparseU.2 h
      rw [hp] at hu
      cases hu
    constructor
    · rintro ⟨_, h⟩
      cases h
    · intro h
      simp only [Bool.and_eq_true, Bool.not_eq_true'] at h
      exact absurd ⟨h.1.1, h.1.2⟩ hno
  | ok u =>
    obtain ⟨hc1, hc2⟩ := hparseU.1 ⟨u, hp⟩
    dsimp only
    rw [hc1, hc2]
    simp only [Bool.not_false, Bool.true_and]
    rw [← hfrag u]
    by_cases hfe : fragmentOf q = []
    · rw [if_pos hfe]
      exact ⟨fun _ => Or.inl hfe, fun _ => ⟨u, rfl⟩⟩
    · rw [if_neg hfe]
      cases hsf : url.URL.setFragment u (fragmentOf q) with
      | error e =>
        constructor
        · rintro ⟨_, h⟩
          cases h
        · rintro (h | ⟨_, h⟩)
          · exact absurd h hfe
          · cases h
      | ok w => exact ⟨fun _ => Or.inr ⟨w, rfl⟩, fun _ => ⟨w, rfl⟩⟩

theorem strings.Cut_fst_append_of_mem (a : Char) (x y : GoString) (hx : a ∈ x) :
    (strings.Cut (x ++ y) [a]).1 = (strings.Cut x [a]).1 := by
  cases hi : strings.Index x [a] with
  | none => exact absurd hx (strings.Index_single_none a x hi)
  | some i =>
    obtain ⟨pre, post, hdec, hpre, hlen⟩ := strings.Index_single_some a x i hi
    have h2 : strings.Index (x ++ y) [a] = some i := by
      rw [hdec, List.append_assoc, List.cons_append, ← hlen]
      exact strings.Index_single_append a (post ++ y) pre hpre
    unfold strings.Cut
    rw [hi, h2]
    dsimp only
    rw [hdec, ← hlen, List.append_assoc, List.take_left, List.take_left]

/-- `url.Parse` of a text without `#` followed by `/` and a resource path:
the text before the fragment of the resource path goes to `parse`, and the
fragment must have well-formed escapes. -/
theorem url.Parse_composed_split (S q : GoString) (hf : '#' ∉ S) :
    (∃ u, url.Parse (S ++ ("/" : GoString) ++ q) = .ok u) ↔
      (∃ u, url.parse (S ++ ('/' :: beforeFragment q)) false = .ok u)
        ∧ validEscapes (fragmentOf q) = true := by
  have hfS : '#' ∉ S ++ ("/" : GoString) := by
    intro hm
    rcases List.mem_append.1 hm with hm | hm
    · exact hf hm
    · revert hm; decide
  have hcutT : strings.Cut (S ++ ("/" : GoString) ++ q) ("#" : GoString)
      = (S ++ ("/" : GoString) ++ beforeFragment q, fragmentOf q,
          (strings.Cut q ("#" : GoString)).2.2) :=
    strings.Cut_single_append_of_not_mem '#' _ q hfS
  have hU : S ++ ("/" : GoString) ++ beforeFragment q = S ++ ('/' :: beforeFragment q) := by
    show S ++ ['/'] ++ beforeFragment q = _
    simp
  have hfrag : ∀ u : url.URL,
      (fragmentOf q = [] ∨ ∃ w, url.URL.setFragment u (fragmentOf q) = .ok w)
        ↔ validEscapes (fragmentOf q) = true := by
    intro u
    rw [url.setFragment_ok_iff,
      url.unescape_ok_iff url.encoding.encodeFragment (by decide) (by decide) _ _ (Nat.le_refl _)]
    constructor
    · rintro (h | h)
      · rw [h]; rfl
      · exact h
    · exact fun h => Or.inr h
  unfold url.Parse
  rw [hcutT]
  dsimp only
  rw [hU]
  cases hp : url.parse (S ++ ('/' :: beforeFragment q)) false with
  | error e =>
    exact ⟨fun ⟨_, h⟩ => (by cases h), fun ⟨⟨_, h⟩, _⟩ => (by cases h)⟩
  | ok u =>
    dsimp only
    rw [← hfrag u]
    by_cases hfe : fragmentOf q = []
    · rw [if_pos hfe]
      exact ⟨fun _ => ⟨⟨u, rfl⟩, Or.inl hfe⟩, fun _ => ⟨u, rfl⟩⟩
    · rw [if_neg hfe]
      cases hsf : url.URL.setFragment u (fragmentOf q) with
      | error e =>
        constructor
        · rintro ⟨_, h⟩
          cases h
        · rintro ⟨_, h | ⟨_, h⟩⟩
          · exact absurd h hfe
          · cases h
      | ok w => exact ⟨fun _ => ⟨⟨u, rfl⟩, Or.inr ⟨w, rfl⟩⟩, fun _ => ⟨w, rfl⟩⟩

/-- `url.Parse` accepts a base URL string of the form `scheme://…` with a `?`
and without `#`, followed by `/` and a resource path, exactly when the
resource path has no control byte before its fragment and the escapes of its
fragment are well formed, provided that it accepts the base URL string. -/
theorem url.Parse_composed_query_ok_iff (S q : GoString)
    (hS : hasSchemeAndAuthority S = true) (hq : '?' ∈ S) (hf : '#' ∉ S)
    (hok : ∃ u0, url.Parse S = .ok u0) :
    (∃ u, url.Parse (S ++ ("/" : GoString) ++ q) = .ok u) ↔
      url.stringContainsCTLByte (beforeFragment q) = false
        ∧ validEscapes (fragmentOf q) = true := by
  obtain ⟨sch, r, mid, hget, hsch, hdec, hmidq, -⟩ := hasSchemeAndAuthority_iff S hS
  have hqr : '?' ∈ r := by
    rw [hdec] at hq
    rcases List.mem_append.1 hq with h | h
    · exact absurd h hmidq
    · rcases List.mem_cons.1 h with h | h
      · exact absurd h (by decide)
      · rcases List.mem_cons.1 h with h | h
        · exact absurd h (by decide)
        · rcases List.mem_cons.1 h with h | h
          · exact absurd h (by decide)
          · exact h
  have hcutS : strings.Cut S ("#" : GoString) = (S, [], false) :=
    strings.Cut_single_of_not_mem '#' S hf
  have hparseS : ∃ u0, url.parse S false = .ok u0 := by
    obtain ⟨u0, h0⟩ := hok
    unfold url.Parse at h0
    rw [hcutS] at h0
    dsimp only at h0
    cases hp : url.parse S false with
    | error e => rw [hp] at h0; cases h0
    | ok u => exact ⟨u, rfl⟩
  have hctlS : url.stringContainsCTLByte S = false := by
    cases hc : url.stringContainsCTLByte S with
    | false => rfl
    | true =>
      obtain ⟨u0, h0⟩ := hparseS
      rw [url.parse_ctl S false hc] at h0
      cases h0
  have hslash : '?' ∉ (['/', '/'] : GoString) := by decide
  have hcutrest : (strings.Cut ('/' :: '/' :: r) ("?" : GoString)).1
      = '/' :: '/' :: (strings.Cut r ['?']).1 := by
    have := strings.Cut_single_append_of_not_mem '?' ['/', '/'] r hslash
    exact congrArg Prod.fst this
  have hgetU : url.getScheme (S ++ ('/' :: beforeFragment q))
      = .ok (sch, '/' :: '/' :: (r ++ '/' :: beforeFragment q)) :=
    url.getSchemeLoop_append S _ _ S [] sch _ hget hsch
  have hcutU : (strings.Cut ('/' :: '/' :: (r ++ '/' :: beforeFragment q)) ("?" : GoString)).1
      = '/' :: '/' :: (strings.Cut r ['?']).1 := by
    have := strings.Cut_single_append_of_not_mem '?' ['/', '/']
      (r ++ '/' :: beforeFragment q) hslash
    have h2 := congrArg Prod.fst this
    rw [strings.Cut_fst_append_of_mem '?' r _ hqr] at h2
    exact h2
  have hctlU : url.stringContainsCTLByte (S ++ ('/' :: beforeFragment q))
      = url.stringContainsCTLByte (beforeFragment q) := by
    rw [url.stringContainsCTLByte_append, hctlS]
    unfold url.stringContainsCTLByte
    simp only [List.any_cons, Bool.false_or]
    have : (decide (('/' : Char).toNat < 32) || ('/' : Char).toNat == 127) = false := by decide
    rw [this, Bool.false_or]
  rw [url.Parse_composed_split S q hf]
  cases hc : url.stringContainsCTLByte (beforeFragment q) with
  | true =>
    rw [url.parse_ctl _ false (hctlU.trans hc)]
    exact ⟨fun ⟨⟨_, h⟩, _⟩ => (by cases h), fun h => (by cases h.1)⟩
  | false =>
    rw [url.parse_hier_ok _ sch _ _ false (hctlU.trans hc) hgetU hsch hcutU,
      ← url.parse_hier_ok S sch _ _ false hctlS hget hsch hcutrest]
    exact ⟨fun h => ⟨rfl, h.2⟩, fun h => ⟨hparseS, h.2⟩⟩

/-- `url.Parse` accepts a base URL string with a `#`, followed by `/` and a
resource path, exactly when the escapes of the resource path are well formed,
provided that it accepts the base URL string: the resource path is read as the
end of the fragment. -/
theorem url.Parse_composed_fragment_ok_iff (S q : GoString) (hf : '#' ∈ S)
    (hok : ∃ u0, url.Parse S = .ok u0) :
    (∃ u, url.Parse (S ++ ("/" : GoString) ++ q) = .ok u) ↔ validEscapes q = true := by
  cases hi : strings.Index S ['#'] with
  | none => exact absurd hf (strings.Index_single_none '#' S hi)
  | some i =>
    obtain ⟨S0, S1, hdec, hS0, -⟩ := strings.Index_single_some '#' S i hi
    have hcut0 : ∀ t : GoString, strings.Cut ('#' :: t) ['#'] = ([], t, true) := by
      intro t
      simp [strings.Cut, strings.Index, List.isPrefixOf]
    have hcutS : strings.Cut S ("#" : GoString) = (S0, S1, true) := by
      have := strings.Cut_single_append_of_not_mem '#' S0 ('#' :: S1) hS0
      rw [hcut0, List.append_nil] at this
      rw [hdec]
      exact this
    have hT : S ++ ("/" : GoString) ++ q = S0 ++ '#' :: (S1 ++ '/' :: q) := by
      rw [hdec]
      show S0 ++ '#' :: S1 ++ ['/'] ++ q = _
      simp
    have hcutT : strings.Cut (S ++ ("/" : GoString) ++ q) ("#" : GoString)
        = (S0, S1 ++ '/' :: q, true) := by
      have := strings.Cut_single_append_of_not_mem '#' S0 ('#' :: (S1 ++ '/' :: q)) hS0
      rw [hcut0, List.append_nil] at this
      rw [hT]
      exact this
    obtain ⟨u0, h0⟩ := hok
    unfold url.Parse at h0 ⊢
    rw [hcutS] at h0
    rw [hcutT]
    dsimp only at h0 ⊢
    cases hp : url.parse S0 false with
    | error e => rw [hp] at h0; cases h0
    | ok u =>
      rw [hp] at h0
      dsimp only at h0 ⊢
      have hy1 : ∃ y1, url.unescape url.encoding.encodeFragment S1 = .ok y1 := by
        by_cases h1 : S1 = []
        · rw [h1]; exact ⟨[], rfl⟩
        · rw [if_neg h1] at h0
          apply (url.setFragment_ok_iff u S1).1
          cases hs : url.URL.setFragment u S1 with
          | error e => rw [hs] at h0; cases h0
          | ok w => exact ⟨w, rfl⟩
      obtain ⟨y1, hy1⟩ := hy1
      have hne : S1 ++ '/' :: q ≠ [] := by simp
      rw [if_neg hne]
      have hv : validEscapes ('/' :: q) = validEscapes q := by
        generalize hrhs : validEscapes q = rhs
        unfold validEscapes
        rw [if_neg (by decide)]
        exact hrhs
      have hiff : (∃ w, url.URL.setFragment u (S1 ++ '/' :: q) = .ok w)
          ↔ validEscapes q = true := by
        rw [url.setFragment_ok_iff, url.unescape_append _ _ _ _ y1 (Nat.le_refl _) hy1, ← hv,
          ← url.unescape_ok_iff url.encoding.encodeFragment (by decide) (by decide) _
            ('/' :: q) (Nat.le_refl _)]
        constructor
        · rintro ⟨y, hy⟩
          cases hr : url.unescape url.encoding.encodeFragment ('/' :: q) with
          | error e => rw [hr] at hy; cases hy
          | ok z => exact ⟨z, rfl⟩
        · rintro ⟨z, hz⟩
          rw [hz]
          exact ⟨_, rfl⟩
      rw [← hiff]
      cases hs : url.URL.setFragment u (S1 ++ '/' :: q) with
      | error e => exact ⟨fun ⟨_, h⟩ => (by cases h), fun ⟨_, h⟩ => (by cases h)⟩
      | ok w => exact ⟨fun _ => ⟨w, rfl⟩, fun _ => ⟨w, rfl⟩⟩

theorem http.removeEmptyPort_plain (h : GoString) (hh : plainHost h = true) :
    http.removeEmptyPort h = h := by
  obtain ⟨-, hall⟩ := (plainHost_iff h).1 hh
  have hcolon : strings.LastIndex h (":" : GoString) = none :=
    strings.LastIndex_single_of_not_mem ':' h fun hm =>
      (hostAlphabet_facts _ (hall _ hm)).2.2.2.2.2.1 rfl
  unfold http.removeEmptyPort http.hasPort
  rw [hcolon]
  rfl

/-- C10, as stated, fails: the client of `http://host` is constructed, and
`prepareHTTPRequest` with no body fails for `GET` and the resource path `%zz`,
with the error of `url.Parse` for `http://host/%zz`. The client of `//a b/x`
is constructed too, and `prepareHTTPRequest` fails for it even with the
resource path `fakeResource`. -/
theorem prepareHTTPRequest_no_body_counterexample :
    NewParseClient "http://host" "mockApplicationID" "mockApplicationKey" = .ok hostClient
      ∧ hostClient.prepareHTTPRequest mockMarshal http.MethodGet "%zz" none
        = .error (.urlError "parse" "http://host/%zz" (.escape "%zz"))
      ∧ ((NewParseClient "//a b/x" "mockApplicationID" "mockApplicationKey").bind
          fun c => c.prepareHTTPRequest mockMarshal http.MethodGet "fakeResource" none)
        = .error (.urlError "parse" "//a%20b/x/fakeResource" (.escape "%20")) := by
  decide

/-- C10, amended. For every method among GET/POST/PUT/DELETE and every
resource path: (1) for every client, `prepareHTTPRequest` with no body returns
the error of `url.Parse` when `url.Parse` refuses the composed URL, and a
request for the parsed URL otherwise; (2) for every client whose base URL
string has the form `scheme://…`, holds no `?` and no `#` and is itself
accepted by `url.Parse`, `prepareHTTPRequest` with no body returns a request
exactly when the resource path (without its leading `/`) is well formed: no
control byte before the first `#`, and every `%` in its path (before the
first `?` or `#`) and in its fragment (after the first `#`) starts an escape
`%XX`; (3) when that base URL string holds a `?` (and no `#`) the resource
path is read as the end of the query, and a request is returned exactly when
the resource path has no control byte before its first `#` and well-formed
escapes after it; (4) when a base URL string accepted by `url.Parse` holds a
`#` the resource path is read as the end of the fragment, and a request is
returned exactly when all its escapes are well formed; (5) for every base URL
`http://host` or `https://host` with a plain host `NewParseClient` returns a
client, and for it and every resource path without a control byte, `%`, `?`
or `#` a request is returned. -/
theorem prepareHTTPRequest_no_body {β : Type} (marshal : β → Except GoError GoString)
    (method : GoString)
    (hm : method ∈ [http.MethodGet, http.MethodPost, http.MethodPut, http.MethodDelete])
    (p : GoString) :
    (∀ c : ParseClient,
        (∀ err, url.Parse (c.requestURL p) = .error err →
          c.prepareHTTPRequest marshal method p none = .error err)
        ∧ (∀ u, url.Parse (c.requestURL p) = .ok u →
          ∃ req, c.prepareHTTPRequest marshal method p none = .ok req
            ∧ req.Method = method
            ∧ req.URL = { u with Host := http.removeEmptyPort u.Host }))
      ∧ (∀ c : ParseClient,
        hasSchemeAndAuthority (url.URL.String c.apiBaseURL) = true →
        '?' ∉ url.URL.String c.apiBaseURL → '#' ∉ url.URL.String c.apiBaseURL →
        (∃ u0, url.Parse (url.URL.String c.apiBaseURL) = .ok u0) →
        ((∃ req, c.prepareHTTPRequest marshal method p none = .ok req)
          ↔ wellFormedResource (strings.TrimPrefix p "/") = true))
      ∧ (∀ c : ParseClient,
        hasSchemeAndAuthority (url.URL.String c.apiBaseURL) = true →
        '?' ∈ url.URL.String c.apiBaseURL → '#' ∉ url.URL.String c.apiBaseURL →
        (∃ u0, url.Parse (url.URL.String c.apiBaseURL) = .ok u0) →
        ((∃ req, c.prepareHTTPRequest marshal method p none = .ok req)
          ↔ url.stringContainsCTLByte (beforeFragment (strings.TrimPrefix p "/")) = false
            ∧ validEscapes (fragmentOf (strings.TrimPrefix p "/")) = true))
      ∧ (∀ c : ParseClient,
        '#' ∈ url.URL.String c.apiBaseURL →
        (∃ u0, url.Parse (url.URL.String c.apiBaseURL) = .ok u0) →
        ((∃ req, c.prepareHTTPRequest marshal method p none = .ok req)
          ↔ validEscapes (strings.TrimPrefix p "/") = true))
      ∧ (∀ sch h applicationID apiKey : GoString,
        (sch = ("http" : GoString) ∨ sch = ("https" : GoString)) →
        plainHost h = true → plainPath p = true →
        ∃ c req, NewParseClient (sch ++ ("://" : GoString) ++ h) applicationID apiKey = .ok c
          ∧ c.prepareHTTPRequest marshal method p none = .ok req
          ∧ req.Method = method ∧ req.URL.Scheme = sch ∧ req.URL.Host = h
          ∧ req.URL.Path = '/' :: strings.TrimPrefix p "/") := by
  obtain ⟨hne, hvalid⟩ := http.validMethod_verbs method hm
  have hreq : ∀ c : ParseClient,
      (∃ req, c.prepareHTTPRequest marshal method p none = .ok req)
        ↔ ∃ u, url.Parse (url.URL.String c.apiBaseURL ++ ("/" : GoString)
            ++ strings.TrimPrefix p "/") = .ok u := by
    intro c
    rw [prepareHTTPRequest_none marshal c method p hne hvalid]
    unfold ParseClient.requestURL
    cases url.Parse (url.URL.String c.apiBaseURL ++ ("/" : GoString)
        ++ strings.TrimPrefix p "/") with
    | error e =>
      exact ⟨fun ⟨_, h⟩ => (by cases h), fun ⟨_, h⟩ => (by cases h)⟩
    | ok u => exact ⟨fun _ => ⟨u, rfl⟩, fun _ => ⟨_, rfl⟩⟩
  refine ⟨fun c => ⟨?_, ?_⟩, ?_, ?_, ?_, ?_⟩
  · intro err herr
    rw [prepareHTTPRequest_none marshal c method p hne hvalid, herr]
  · intro u hu
    rw [prepareHTTPRequest_none marshal c method p hne hvalid, hu]
    exact ⟨_, rfl, rfl, rfl⟩
  · intro c hS hq hf hok
    rw [hreq c, url.Parse_composed_ok_iff _ (strings.TrimPrefix p "/") hS hq hf hok]
  · intro c hS hq hf hok
    rw [hreq c, url.Parse_composed_query_ok_iff _ (strings.TrimPrefix p "/") hS hq hf hok]
  · intro c hf hok
    rw [hreq c, url.Parse_composed_fragment_ok_iff _ (strings.TrimPrefix p "/") hf hok]
  · intro sch h applicationID apiKey hsch hh hp
    have hsne : sch ≠ [] := by
      rcases hsch with rfl | rfl <;> decide
    obtain ⟨raw, hparse⟩ := url.Parse_composed_plain sch h p hsch hh hp
    have hreq := prepareHTTPRequest_none marshal
      ({ apiBaseURL := { Scheme := sch, Host := h }, applicationID := applicationID,
         restAPIKey := apiKey } : ParseClient) method p hne hvalid
    unfold ParseClient.requestURL at hreq
    dsimp only at hreq
    rw [url.String_plain sch h hsne hh, hparse] at hreq
    exact ⟨_, _, NewParseClient_plain sch h applicationID apiKey hsch hh, hreq, rfl, rfl,
      http.removeEmptyPort_plain h hh, rfl⟩

/-- C10, at the clients of `http://localhost:1337/parse` and of
`http://127.0.0.1:8080`: they are constructed and meet the conditions of (2);
a `GET` of `classes/GameScore?limit=1`, of `a%20b#frag` and of `fakeResource`
with no body returns a request, and a `GET` of `%zz` returns none. -/
theorem prepareHTTPRequest_no_body_witness :
    NewParseClient "http://localhost:1337/parse" "mockApplicationID" "mockApplicationKey"
        = .ok localClient
      ∧ NewParseClient "http://127.0.0.1:8080" "mockApplicationID" "mockApplicationKey"
        = .ok testServerClient
      ∧ url.URL.String localClient.apiBaseURL = ("http://localhost:1337/parse" : GoString)
      ∧ (∃ req, localClient.prepareHTTPRequest mockMarshal http.MethodGet
          "classes/GameScore?limit=1" none = .ok req)
      ∧ (∃ req, localClient.prepareHTTPRequest mockMarshal http.MethodGet
          "/a%20b#frag" none = .ok req)
      ∧ (∃ req, testServerClient.prepareHTTPRequest mockMarshal http.MethodGet
          "fakeResource" none = .ok req)
      ∧ (¬∃ req, localClient.prepareHTTPRequest mockMarshal http.MethodGet
          "%zz" none = .ok req) :=
  ⟨by decide, by decide, by decide,
    ((prepareHTTPRequest_no_body mockMarshal http.MethodGet (by decide)
      "classes/GameScore?limit=1").2.1 localClient (by decide) (by decide) (by decide)
      ⟨_, rfl⟩).2 (by decide),
    ((prepareHTTPRequest_no_body mockMarshal http.MethodGet (by decide)
      "/a%20b#frag").2.1 localClient (by decide) (by decide) (by decide)
      ⟨_, rfl⟩).2 (by decide),
    ((prepareHTTPRequest_no_body mockMarshal http.MethodGet (by decide)
      "fakeResource").2.1 testServerClient (by decide) (by decide) (by decide)
      ⟨_, rfl⟩).2 (by decide),
    fun h => absurd
      (((prepareHTTPRequest_no_body mockMarshal http.MethodGet (by decide)
        "%zz").2.1 localClient (by decide) (by decide) (by decide) ⟨_, rfl⟩).1 h)
      (by decide)⟩

end Goparse
